import Mathlib

/-!
# MBR conversion notes (`partnotes.cc`)

A shallow embedding of the `PartNotes` class of gptfdisk: the linked list of
partition notes becomes a `List PartInfo`, the C loops become recursive
functions over that list, and C `int` variables that can be negative are `Int`.
Counters that start at zero and only grow are `Nat`. The two sums of
`TrimSmallestExtended` that involve `origTableSize` are taken in 32-bit `int`
arithmetic with wrap-around (`wrapInt`); the other sums are positions in the
list and counts of its notes.

A pointer to a note is a position in the list (`NotePointer`); when
`RemoveDuplicates` unlinks notes, the cursor moves with its note, or it is left
at a note that is no longer in the list: one that was deleted, or one that was
unlinked without being deleted, whose `next` chain is kept with the pointer.

The interactive parts (`cout`, `fgets`) are left out; `ChangeType` is embedded
on the path where the confirmation `fgets` succeeds.
-/

set_option autoImplicit false

namespace PartNotesModel

/-- Modelled from the spec: the three values of the `type` field, whose constants
`PRIMARY`, `LOGICAL` and `WILL_NOT_CONVERT` are declared in the header
`partnotes.h`, which is not part of the sources at hand. -/
inductive PartType where
  | PRIMARY
  | LOGICAL
  | WILL_NOT_CONVERT
  deriving DecidableEq, Repr

open PartType

/-- Modelled from the spec: the record `struct PartInfo` of `partnotes.h` (not
part of the sources at hand), with the fields that `partnotes.cc` reads and
writes. The `next` pointer is the tail of the list holding the record. -/
structure PartInfo where
  origPartNum : Int
  type : PartType
  hexCode : Nat
  active : Nat
  spaceBefore : Bool
  firstLBA : Nat
  lastLBA : Nat
  deriving DecidableEq, Repr

/-- A pointer to a note, as `currentNote` is: `NULL`; the note at a position of
the list `notes`; a note that `RemoveDuplicates` has unlinked from the list
without deleting it, being between a note and a later duplicate of that note
(`note` is the note pointed to, `chain` holds the notes that follow it through
`next` up to the deleted duplicate, which is not part of `chain`); or a note
that `RemoveDuplicates` has deleted. -/
inductive NotePointer where
  | null
  | inList (pos : Nat)
  | leftBehind (note : PartInfo) (chain : List PartInfo)
  | deleted
  deriving DecidableEq, Repr

/-- The object state of `PartNotes`: the list `notes`, the remembered
`origTableSize` (an `int`), and the iteration cursor `currentNote` with
`currentIndex`. -/
structure PartNotes where
  notes : List PartInfo
  origTableSize : Int
  currentNote : NotePointer
  currentIndex : Int
  deriving DecidableEq, Repr

/-- The value of a 32-bit `int` sum: the exact sum brought back into
`-2^31 .. 2^31 - 1` by wrap-around. -/
def wrapInt (x : Int) : Int :=
  (x + 2147483648) % 4294967296 - 2147483648

/-- One element of the `extendeds` array of `TrimSmallestExtended`. -/
structure ExtendedInfo where
  startNum : Int
  numLogicals : Int
  deriving DecidableEq, Repr

/-! ### Positional access: the clamped walk

`while ((count++ < partNum) && (theNote->next != NULL)) theNote = theNote->next;` -/

/-- The walk of `SetType`, `SetMbrHexType` and `ToggleActiveStatus`, followed by
an update `f` of the note reached. -/
def walkModify (f : PartInfo → PartInfo) (partNum : Int) : Int → List PartInfo → List PartInfo
  | _, [] => []
  | _, [x] => [f x]
  | count, x :: y :: r =>
    if count < partNum then x :: walkModify f partNum (count + 1) (y :: r)
    else f x :: y :: r

/-- The walk of the positional getters: the note reached, `none` on an empty list. -/
def walkGet (partNum : Int) : Int → List PartInfo → Option PartInfo
  | _, [] => none
  | _, [x] => some x
  | count, x :: y :: r =>
    if count < partNum then walkGet partNum (count + 1) (y :: r) else some x

/-- `PartNotes::SetType`. -/
def PartNotes.SetType (s : PartNotes) (partNum : Int) (type : PartType) : PartNotes :=
  { s with notes := walkModify (fun n => { n with type := type }) partNum 0 s.notes }

/-- `PartNotes::GetType`. -/
def PartNotes.GetType (s : PartNotes) (partNum : Int) : PartType :=
  match walkGet partNum 0 s.notes with
  | some n => n.type
  | none => WILL_NOT_CONVERT

/-- `PartNotes::CanBeLogical`. -/
def PartNotes.CanBeLogical (s : PartNotes) (partNum : Int) : Bool :=
  match walkGet partNum 0 s.notes with
  | some n => n.spaceBefore
  | none => false

/-! ### Counting -/

/-- The loop of `GetNumParts`. -/
def numPartsLoop : List PartInfo → Nat
  | [] => 0
  | x :: r => (if x.type = PRIMARY ∨ x.type = LOGICAL then 1 else 0) + numPartsLoop r

/-- `PartNotes::GetNumParts`. -/
def PartNotes.GetNumParts (s : PartNotes) : Nat := numPartsLoop s.notes

/-- The loop of `GetNumPrimary`. -/
def numPrimaryLoop : List PartInfo → Nat
  | [] => 0
  | x :: r => (if x.type = PRIMARY then 1 else 0) + numPrimaryLoop r

/-- `PartNotes::GetNumPrimary`. -/
def PartNotes.GetNumPrimary (s : PartNotes) : Nat := numPrimaryLoop s.notes

/-- The loop of `GetNumLogical`. -/
def numLogicalLoop : List PartInfo → Nat
  | [] => 0
  | x :: r => (if x.type = LOGICAL then 1 else 0) + numLogicalLoop r

/-- `PartNotes::GetNumLogical`. -/
def PartNotes.GetNumLogical (s : PartNotes) : Nat := numLogicalLoop s.notes

/-- The loop of `GetNumExtended`, with the flag `lastWasLogical` as an argument:
a `PRIMARY` note clears the flag, a `LOGICAL` note counts when the flag is clear
and sets it, a `WILL_NOT_CONVERT` note does nothing. -/
def numExtendedLoop : Bool → List PartInfo → Nat
  | _, [] => 0
  | lastWasLogical, x :: r =>
    match x.type with
    | PRIMARY => numExtendedLoop false r
    | LOGICAL => (if lastWasLogical then 0 else 1) + numExtendedLoop true r
    | WILL_NOT_CONVERT => numExtendedLoop lastWasLogical r

/-- `PartNotes::GetNumExtended`. -/
def PartNotes.GetNumExtended (s : PartNotes) : Nat := numExtendedLoop false s.notes

/-! ### FindExtended -/

/-- The first loop of `FindExtended`: skip notes while there is a next one and
either `next < start` or the note is not `LOGICAL`. Returns the notes from the
one reached on, and `next`. -/
def findSkipLoop (start : Int) : Int → List PartInfo → List PartInfo × Int
  | next, [] => ([], next)
  | next, [x] => ([x], next)
  | next, x :: y :: r =>
    if next < start ∨ x.type ≠ LOGICAL then findSkipLoop start (next + 1) (y :: r)
    else (x :: y :: r, next)

/-- The second loop of `FindExtended`: count `LOGICAL` notes while there is a
next one. -/
def findCountLoop : List PartInfo → Int
  | [] => 0
  | [_] => 0
  | x :: y :: r => if x.type = LOGICAL then 1 + findCountLoop (y :: r) else 0

/-- `PartNotes::FindExtended`: the returned length and the value left in the
by-reference argument `start`. -/
def PartNotes.FindExtended (s : PartNotes) (start : Int) : Int × Int :=
  if s.notes ≠ [] ∧ start ≥ 0 then
    let reached := findSkipLoop start 0 s.notes
    (findCountLoop reached.1, reached.2)
  else (0, start)

/-! ### IsLegal -/

/-- The loop of `IsLegal` that computes `legalLogicals`. -/
def legalLogicalsLoop : Bool → List PartInfo → Bool
  | legalLogicals, [] => legalLogicals
  | legalLogicals, x :: r =>
    legalLogicalsLoop (if (!x.spaceBefore) && x.type = LOGICAL then false else legalLogicals) r

/-- `PartNotes::IsLegal`. -/
def PartNotes.IsLegal (s : PartNotes) : Bool :=
  let p := s.GetNumPrimary
  let e := s.GetNumExtended
  decide (p + e ≤ 4) && decide (e ≤ 1) && legalLogicalsLoop true s.notes

/-! ### RemoveDuplicates -/

/-- The inner loop of `RemoveDuplicates`. The first list is the chain
`n1->next`, the second one the notes from `n2` on. At a note `n2` with the
extents of `n1`, the assignment `n1->next = n2->next` makes the chain start
after `n2`: the notes between `n1` and `n2` leave the list together with `n2`.
Otherwise `n2` advances and the chain stays. Returns the chain `n1->next` left
when `n2` is `NULL`. -/
def removeMatching (n1 : PartInfo) : List PartInfo → List PartInfo → List PartInfo
  | next, [] => next
  | next, n2 :: r =>
    if n1.firstLBA = n2.firstLBA ∧ n1.lastLBA = n2.lastLBA then removeMatching n1 r r
    else removeMatching n1 next r

/-- The outer loop of `RemoveDuplicates`: the inner loop starts with
`n2 = n1->next`, then `n1` advances. -/
def removeDuplicatesLoop : List PartInfo → List PartInfo
  | [] => []
  | n1 :: r => n1 :: removeDuplicatesLoop (removeMatching n1 r r)
termination_by l => l.length
decreasing_by
  simp_wf
  have h : ∀ (a : PartInfo) (l next : List PartInfo), l.length ≤ next.length →
      (removeMatching a next l).length ≤ next.length := by
    intro a l
    induction l with
    | nil => intro next _; simp [removeMatching]
    | cons b t ih =>
      intro next hl
      simp only [List.length_cons] at hl
      simp only [removeMatching]
      split
      · exact Nat.le_trans (ih t (Nat.le_refl _)) (by omega)
      · exact ih next (by omega)
  exact Nat.lt_succ_of_le (h _ _ _ (Nat.le_refl _))

/-- The pointer to a note that left the list: `l` starts with that note. A note
with the extents of `n1` was deleted; another one keeps its `next` chain, which
runs up to the next note with the extents of `n1`. -/
def unlinkedPointer (n1 : PartInfo) (l : List PartInfo) : NotePointer :=
  match l.takeWhile (fun n2 => !decide (n1.firstLBA = n2.firstLBA ∧ n1.lastLBA = n2.lastLBA)) with
  | [] => NotePointer.deleted
  | note :: chain => NotePointer.leftBehind note chain

/-- What becomes of a pointer when the inner loop of `RemoveDuplicates` has run
for the note `n1` at position `k`, `r` being the notes after `n1` before the
loop, of which the first `d` left the list: the pointer stays up to position
`k`, points to a note that left the list on the next `d` positions, and moves
down by `d` beyond them. -/
def movePointer (n1 : PartInfo) (r : List PartInfo) (k d : Nat) : NotePointer → NotePointer
  | NotePointer.inList p =>
    if p ≤ k then NotePointer.inList p
    else if p ≤ k + d then unlinkedPointer n1 (r.drop (p - k - 1))
    else NotePointer.inList (p - d)
  | c => c

/-- What becomes of a pointer during the outer loop of `RemoveDuplicates`, `n1`
being at position `k` of the list. -/
def removeDuplicatesPointer : Nat → List PartInfo → NotePointer → NotePointer
  | _, [], c => c
  | k, n1 :: r, c =>
    removeDuplicatesPointer (k + 1) (removeMatching n1 r r)
      (movePointer n1 r k (r.length - (removeMatching n1 r r).length) c)
termination_by _ l _ => l.length
decreasing_by
  simp_wf
  have h : ∀ (a : PartInfo) (l next : List PartInfo), l.length ≤ next.length →
      (removeMatching a next l).length ≤ next.length := by
    intro a l
    induction l with
    | nil => intro next _; simp [removeMatching]
    | cons b t ih =>
      intro next hl
      simp only [List.length_cons] at hl
      simp only [removeMatching]
      split
      · exact Nat.le_trans (ih t (Nat.le_refl _)) (by omega)
      · exact ih next (by omega)
  exact Nat.lt_succ_of_le (h _ _ _ (Nat.le_refl _))

/-- `PartNotes::RemoveDuplicates`; the cursor `currentNote` follows its note. -/
def PartNotes.RemoveDuplicates (s : PartNotes) : PartNotes :=
  { s with
    notes := removeDuplicatesLoop s.notes,
    currentNote := removeDuplicatesPointer 0 s.notes s.currentNote }

/-! ### TrimSmallestExtended -/

/-- The first `for` loop of `TrimSmallestExtended`: it fills `extendeds`, each
search starting where the previous extended partition was found to end. The
first argument counts the entries still to fill. -/
def extendedsLoop (s : PartNotes) : Nat → Int → List ExtendedInfo
  | 0, _ => []
  | k + 1, startNum =>
    let found := s.FindExtended startNum
    { startNum := found.2, numLogicals := found.1 } ::
      extendedsLoop s k (found.2 + found.1)

/-- The second `for` loop of `TrimSmallestExtended`, on the pair
`(shortestNum, shortestIndex)`. -/
def shortestLoop : List ExtendedInfo → Int × Int → Int × Int
  | [], shortest => shortest
  | e :: r, shortest =>
    if e.numLogicals < shortest.1 then shortestLoop r (e.numLogicals, e.startNum)
    else shortestLoop r shortest

/-- The `while` loop of `TrimSmallestExtended` that walks to `shortestIndex`:
`while ((i++ < shortestIndex) && (theNote->next != NULL))`. Returns the notes
passed, the value of `i` after the loop, and the notes from `theNote` on. -/
def trimSeekLoop (shortestIndex : Int) :
    List PartInfo → Int → List PartInfo → List PartInfo × Int × List PartInfo
  | pre, i, x :: y :: r =>
    if i < shortestIndex then trimSeekLoop shortestIndex (pre ++ [x]) (i + 1) (y :: r)
    else (pre, i + 1, x :: y :: r)
  | pre, i, rest => (pre, i + 1, rest)

/-- The `do ... while ((i++ < shortestNum + shortestIndex) && (theNote != NULL))`
loop of `TrimSmallestExtended`; `pre` holds the notes before `theNote`, so that
`GetNumPrimary()` is evaluated on the whole list as it stands. -/
def trimDoLoop (bound : Int) : List PartInfo → Int → List PartInfo → List PartInfo
  | pre, _, [] => pre
  | pre, i, x :: rest =>
    let x1 : PartInfo :=
      { x with type := if numPrimaryLoop (pre ++ x :: rest) < 3 then PRIMARY
                       else WILL_NOT_CONVERT }
    if i < bound ∧ rest ≠ [] then trimDoLoop bound (pre ++ [x1]) (i + 1) rest
    else pre ++ x1 :: rest

/-- `PartNotes::TrimSmallestExtended`. The sums `origTableSize + 1` and
`shortestNum + shortestIndex` are `int` sums. -/
def PartNotes.TrimSmallestExtended (s : PartNotes) : PartNotes :=
  if s.notes ≠ [] then
    let numExtended := s.GetNumExtended
    let extendeds := extendedsLoop s numExtended 0
    let shortest := shortestLoop extendeds (wrapInt (s.origTableSize + 1), -1)
    let reached := trimSeekLoop shortest.2 [] 0 s.notes
    { s with
      notes := trimDoLoop (wrapInt (shortest.1 + shortest.2)) reached.1 reached.2.1
        reached.2.2 }
  else s

/-! ### MakeItLegal -/

/-- A write of `type` through a pointer to the note at position `pos`. -/
def writeType (type : PartType) : Nat → List PartInfo → List PartInfo
  | _, [] => []
  | 0, x :: r => { x with type := type } :: r
  | pos + 1, x :: r => x :: writeType type pos r

/-- The loop `while (GetNumExtended() > 1) TrimSmallestExtended();`. The loop
has no bound in the source; `fuel` bounds the number of passes, and `none`
means that the passes allowed did not suffice. -/
def trimLoop : Nat → PartNotes → Option PartNotes
  | 0, s => if s.GetNumExtended > 1 then none else some s
  | fuel + 1, s =>
    if s.GetNumExtended > 1 then trimLoop fuel s.TrimSmallestExtended else some s

/-- The scan for the last `PRIMARY` note; `lastPrimary` is a position. -/
def lastPrimaryLoop : Nat → Option Nat → List PartInfo → Option Nat
  | _, lastPrimary, [] => lastPrimary
  | pos, lastPrimary, x :: r =>
    lastPrimaryLoop (pos + 1) (if x.type = PRIMARY then some pos else lastPrimary) r

/-- The loop `while (!IsLegal() && (lastPrimary != NULL))` that cuts primaries. -/
def cutPrimariesLoop : Nat → Option Nat → PartNotes → Option PartNotes
  | 0, lastPrimary, s => if !s.IsLegal ∧ lastPrimary ≠ none then none else some s
  | fuel + 1, lastPrimary, s =>
    if !s.IsLegal ∧ lastPrimary ≠ none then
      match lastPrimaryLoop 0 none s.notes with
      | some pos =>
        cutPrimariesLoop fuel (some pos)
          { s with notes := writeType WILL_NOT_CONVERT pos s.notes }
      | none => cutPrimariesLoop fuel none s
    else some s

/-- The loop that turns every `LOGICAL` note into a `PRIMARY` one. -/
def allPrimaryLoop : List PartInfo → List PartInfo
  | [] => []
  | x :: r => (if x.type = LOGICAL then { x with type := PRIMARY } else x) :: allPrimaryLoop r

/-- The search for `firstPart`: a note replaces it when its `firstLBA` is
strictly smaller and it is not `WILL_NOT_CONVERT`. `firstPart` is a position
together with the note there. -/
def firstPartLoop : Nat → Nat × PartInfo → List PartInfo → Nat × PartInfo
  | _, firstPart, [] => firstPart
  | pos, firstPart, x :: r =>
    firstPartLoop (pos + 1)
      (if x.firstLBA < firstPart.2.firstLBA ∧ x.type ≠ WILL_NOT_CONVERT then (pos, x)
       else firstPart) r

/-- The block `if (!IsLegal()) { ... }` of `MakeItLegal`. -/
def PartNotes.cutToLegal (fuel : Nat) (s : PartNotes) : Option PartNotes :=
  if !s.IsLegal then
    match trimLoop fuel s with
    | some t => cutPrimariesLoop fuel (some 0) t
    | none => none
  else some s

/-- The block "If four or fewer partitions were converted, make them all
primaries" of `MakeItLegal`. -/
def PartNotes.allPrimaryIfFew (s : PartNotes) : PartNotes :=
  if s.GetNumPrimary + s.GetNumLogical ≤ 4 then { s with notes := allPrimaryLoop s.notes }
  else s

/-- The block "Try to make the first partition a primary" of `MakeItLegal`. -/
def PartNotes.firstToPrimary (s : PartNotes) : PartNotes :=
  if s.GetNumExtended + s.GetNumPrimary < 4 then
    match s.notes with
    | [] => s
    | head :: _ =>
      let firstPart := firstPartLoop 0 (0, head) s.notes
      if firstPart.2.spaceBefore then
        { s with notes := writeType PRIMARY firstPart.1 s.notes }
      else s
  else s

/-- `PartNotes::MakeItLegal`: the value returned and the state left; `none` when
`fuel` passes of one of the two unbounded loops did not suffice. -/
def PartNotes.MakeItLegal (fuel : Nat) (s : PartNotes) : Option (Bool × PartNotes) :=
  if s.notes = [] then some (false, s)
  else
    match s.RemoveDuplicates.cutToLegal fuel with
    | some t =>
      let u := t.allPrimaryIfFew.firstToPrimary
      some (u.IsLegal, u)
    | none => none

/-! ### ChangeType -/

/-- `PartNotes::ChangeType`: the value returned and the state left. -/
def PartNotes.ChangeType (s : PartNotes) (partNum : Int) (newType : PartType) :
    Bool × PartNotes :=
  if s.notes ≠ [] ∧ s.IsLegal then
    let origType := s.GetType partNum
    let s1 := s.SetType partNum newType
    if !s1.IsLegal then (true, s1.SetType partNum origType) else (true, s1)
  else (false, s)

/-! ### SetMbrHexType -/

/-- `PartNotes::SetMbrHexType`: the state left, and whether the message
"Refusing to set MBR hex code to one used for an extended partition!" was
printed. The argument `type` stands for a `uint8_t`. -/
def PartNotes.SetMbrHexType (s : PartNotes) (partNum : Int) (type : Nat) : PartNotes × Bool :=
  if type ≠ 0x0f ∧ type ≠ 0x05 ∧ type ≠ 0x85 then
    ({ s with notes := walkModify (fun n => { n with hexCode := type }) partNum 0 s.notes },
      false)
  else (s, true)

/-! ### Rewind and GetNextInfo -/

/-- `PartNotes::Rewind`: `currentNote` points to the first note, or is `NULL` on
an empty list. -/
def PartNotes.Rewind (s : PartNotes) : PartNotes :=
  { s with
    currentNote := if s.notes = [] then NotePointer.null else NotePointer.inList 0,
    currentIndex := 0 }

/-- `PartNotes::GetNextInfo`: the value returned, the note copied into `*info`
(`none` when `*info` is not written), and the state left. With the cursor at a
note that was unlinked without being deleted, the code copies that note and
follows its `next` pointer, which ends at the deleted duplicate. With the
cursor at a deleted note, `*currentNote` reads freed memory, for which C++
defines no behaviour: the embedding has no value for that and gives the result
of the `NULL` branch there, as it does for a position beyond the list, which no
function produces. -/
def PartNotes.GetNextInfo (s : PartNotes) : Int × Option PartInfo × PartNotes :=
  match s.currentNote with
  | NotePointer.inList pos =>
    match s.notes[pos]? with
    | some note =>
      (s.currentIndex + 1 - 1, some note,
        { s with
          currentNote :=
            if pos + 1 < s.notes.length then NotePointer.inList (pos + 1)
            else NotePointer.null,
          currentIndex := s.currentIndex + 1 })
    | none => (-1, none, s)
  | NotePointer.leftBehind note chain =>
    (s.currentIndex + 1 - 1, some note,
      { s with
        currentNote :=
          match chain with
          | [] => NotePointer.deleted
          | next :: rest => NotePointer.leftBehind next rest,
        currentIndex := s.currentIndex + 1 })
  | NotePointer.deleted => (-1, none, s)
  | NotePointer.null => (-1, none, s)

/-! ### The messages of ChangeType -/

/-- The four messages with which `ChangeType` names the cause of a refusal. -/
inductive ChangeMessage where
  /-- Message "At least one free sector must exist before each logical partition." -/
  | freeSectorNeeded
  /-- Message "All logical partitions must be contiguous." -/
  | mustBeContiguous
  /-- Message "You can have only four primary partitions (all logical partitions
  count as one primary partition)." -/
  | onlyFourPrimaries
  /-- Message "Logical partitions must form a single contiguous group." -/
  | singleGroup
  deriving DecidableEq, Repr

/-- The cause messages that `PartNotes::ChangeType` prints, in order; they are
printed between the two `SetType` calls, on the tentative state. -/
def PartNotes.ChangeTypeMessages (s : PartNotes) (partNum : Int) (newType : PartType) :
    List ChangeMessage :=
  if s.notes ≠ [] ∧ s.IsLegal then
    let s1 := s.SetType partNum newType
    if !s1.IsLegal then
      (if newType = LOGICAL then
        (if !s1.CanBeLogical partNum then [ChangeMessage.freeSectorNeeded]
         else [ChangeMessage.mustBeContiguous])
       else []) ++
      (if newType = PRIMARY ∧ s1.GetNumPrimary + s1.GetNumExtended > 4 then
        [ChangeMessage.onlyFourPrimaries] else []) ++
      (if newType = PRIMARY ∧ s1.GetNumExtended > 1 then [ChangeMessage.singleGroup] else [])
    else []
  else []

/-! ## Definitions that follow the words of the specification -/

/-- Whether position `i` of `l` holds a `LOGICAL` note. -/
def isLogicalAt (l : List PartInfo) (i : Nat) : Bool :=
  match l.get? i with
  | some x => decide (x.type = LOGICAL)
  | none => false

/-- The number of maximal runs of consecutive `LOGICAL` notes of `l`, counted by
their first positions: a position starts a run when it holds a `LOGICAL` note
and the position right before it, if any, does not. Any other note, `PRIMARY`
or `WILL_NOT_CONVERT`, ends a run. -/
def logicalRuns (l : List PartInfo) : Nat :=
  ((List.range l.length).filter
    (fun i => isLogicalAt l i && (i == 0 || !isLogicalAt l (i - 1)))).length

/-- Two notes have the same extents. -/
def sameExtents (a b : PartInfo) : Bool :=
  decide (a.firstLBA = b.firstLBA) && decide (a.lastLBA = b.lastLBA)

/-- The notes of a list that are first occurrences of their extents: a note is
dropped exactly when one of the notes before it in the input, listed in
`earlier`, has its extents; the others stay, in order. -/
def firstOccurrencesFrom (earlier : List PartInfo) : List PartInfo → List PartInfo
  | [] => []
  | x :: r =>
    if earlier.any (fun e => sameExtents e x) then firstOccurrencesFrom (earlier ++ [x]) r
    else x :: firstOccurrencesFrom (earlier ++ [x]) r

/-- The count of `logicalRuns` with the state of the position before the list
given by `prevLogical`; `logicalRuns` is the case `prevLogical = false`. -/
def logicalRunsAfter (prevLogical : Bool) (l : List PartInfo) : Nat :=
  ((List.range l.length).filter
    (fun i => isLogicalAt l i && (if i = 0 then !prevLogical else !isLogicalAt l (i - 1)))).length

/-- The position that an index `i` stands for in a list of `n` notes:
`min(max(i, 0), n - 1)`. -/
def clampedPosition (n : Nat) (i : Int) : Nat :=
  (min (max i 0) ((n : Int) - 1)).toNat

/-- The state after `k` calls of `GetNextInfo`. -/
def afterNextInfoCalls : Nat → PartNotes → PartNotes
  | 0, s => s
  | k + 1, s => (afterNextInfoCalls k s).GetNextInfo.2.2

/-- The length of the maximal run of consecutive `LOGICAL` notes of `l` that
begins at position `p`. -/
def logicalRunLength (l : List PartInfo) (p : Nat) : Nat :=
  ((l.drop p).takeWhile (fun x => decide (x.type = LOGICAL))).length

/-- The list with its first `n` `PRIMARY` notes kept as they are and every later
`PRIMARY` note turned `WILL_NOT_CONVERT`; the notes that are not `PRIMARY` stay
as they are. -/
def keepFirstPrimaries : Nat → List PartInfo → List PartInfo
  | _, [] => []
  | n, x :: r =>
    if x.type = PRIMARY then
      match n with
      | 0 => { x with type := WILL_NOT_CONVERT } :: keepFirstPrimaries 0 r
      | m + 1 => x :: keepFirstPrimaries m r
    else x :: keepFirstPrimaries n r

/-! ## Relations used in the proofs -/

/-- A note `b` stands for the note `a` after type changes that never produce a
`LOGICAL` note: it is `a` itself or it is not `LOGICAL`, and the fields other
than `type` are those of `a`. -/
def Retyped (a b : PartInfo) : Prop :=
  (b = a ∨ b.type ≠ LOGICAL) ∧ b.spaceBefore = a.spaceBefore ∧ b.firstLBA = a.firstLBA ∧
    b.lastLBA = a.lastLBA ∧ b.origPartNum = a.origPartNum ∧ b.hexCode = a.hexCode ∧
    b.active = a.active

/-- Every `LOGICAL` note of the list has a free sector before it. -/
def LogicalsHaveSpace (l : List PartInfo) : Prop :=
  ∀ x ∈ l, x.type = LOGICAL → x.spaceBefore = true

/-- No note of the list starts before the first one. -/
def FirstStartsFirst : List PartInfo → Prop
  | [] => True
  | h :: r => ∀ x ∈ r, h.firstLBA ≤ x.firstLBA

/-- A note `b` stands for the note `a` after a demotion: it is `a` itself, or `a`
was `LOGICAL` and `b` is `a` with its type turned `PRIMARY` or
`WILL_NOT_CONVERT`, every other field as it was. -/
def Demoted (a b : PartInfo) : Prop :=
  b = a ∨ (a.type = LOGICAL ∧
    (b = { a with type := PRIMARY } ∨ b = { a with type := WILL_NOT_CONVERT }))

/-! ## Sample tables -/

/-- A note with the given type, free-sector flag and first sector, ten sectors long. -/
def sampleNote (type : PartType) (spaceBefore : Bool) (firstLBA : Nat) : PartInfo :=
  { origPartNum := 0, type := type, hexCode := 0x83, active := 0,
    spaceBefore := spaceBefore, firstLBA := firstLBA, lastLBA := firstLBA + 9 }

/-- A table with the given notes and original table size, its cursor at rest. -/
def sampleTable (origTableSize : Int) (notes : List PartInfo) : PartNotes :=
  { notes := notes, origTableSize := origTableSize, currentNote := NotePointer.null,
    currentIndex := 0 }

/-- Types `LOGICAL, WILL_NOT_CONVERT, LOGICAL`. -/
def tableLEL : PartNotes :=
  sampleTable 3 [sampleNote LOGICAL true 0, sampleNote WILL_NOT_CONVERT true 10,
    sampleNote LOGICAL true 20]

/-- Two `PRIMARY` notes, the second one without a free sector before it. -/
def tablePP : PartNotes :=
  sampleTable 2 [sampleNote PRIMARY true 0, sampleNote PRIMARY false 10]

/-- Types `LOGICAL, LOGICAL, LOGICAL, PRIMARY, LOGICAL, LOGICAL`, original table
size 6, every note with a free sector before it. -/
def tableLLLPLL : PartNotes :=
  sampleTable 6 [sampleNote LOGICAL true 0, sampleNote LOGICAL true 10,
    sampleNote LOGICAL true 20, sampleNote PRIMARY true 30, sampleNote LOGICAL true 40,
    sampleNote LOGICAL true 50]

/-- The table `tableLLLPLL` with its last two notes turned `PRIMARY`. -/
def tableLLLPPP : PartNotes :=
  sampleTable 6 [sampleNote LOGICAL true 0, sampleNote LOGICAL true 10,
    sampleNote LOGICAL true 20, sampleNote PRIMARY true 30, sampleNote PRIMARY true 40,
    sampleNote PRIMARY true 50]

/-- Types `PRIMARY, LOGICAL, PRIMARY, LOGICAL, WILL_NOT_CONVERT`, with the original
table size 0 that the constructor of `PartNotes` sets. -/
def tablePLPLE : PartNotes :=
  sampleTable 0 [sampleNote PRIMARY true 0, sampleNote LOGICAL true 10,
    sampleNote PRIMARY true 20, sampleNote LOGICAL true 30,
    sampleNote WILL_NOT_CONVERT true 40]

/-- Types `LOGICAL, WILL_NOT_CONVERT, LOGICAL, WILL_NOT_CONVERT, LOGICAL, PRIMARY,
LOGICAL`, original table size 7. -/
def tableLELELPL : PartNotes :=
  sampleTable 7 [sampleNote LOGICAL true 0, sampleNote WILL_NOT_CONVERT true 10,
    sampleNote LOGICAL true 20, sampleNote WILL_NOT_CONVERT true 30,
    sampleNote LOGICAL true 40, sampleNote PRIMARY true 50, sampleNote LOGICAL true 60]

/-- Five `LOGICAL` notes in disk order, the third one without a free sector
before it; original table size 5. -/
def tableFiveLogicalOneTight : PartNotes :=
  sampleTable 5 [sampleNote LOGICAL true 0, sampleNote LOGICAL true 10,
    sampleNote LOGICAL false 20, sampleNote LOGICAL true 30, sampleNote LOGICAL true 40]

/-- The table `tableFiveLogicalOneTight` with its first note turned `PRIMARY`. -/
def tableFiveLogicalOneTightAfter : PartNotes :=
  sampleTable 5 [sampleNote PRIMARY true 0, sampleNote LOGICAL true 10,
    sampleNote LOGICAL false 20, sampleNote LOGICAL true 30, sampleNote LOGICAL true 40]

/-- Five `LOGICAL` notes, each with a free sector before it, the second one
starting first on the disk; original table size 5. -/
def tableFiveLogicalSwapped : PartNotes :=
  sampleTable 5 [sampleNote LOGICAL true 10, sampleNote LOGICAL true 0,
    sampleNote LOGICAL true 20, sampleNote LOGICAL true 30, sampleNote LOGICAL true 40]

/-- The table `tableFiveLogicalSwapped` with its second note turned `PRIMARY`. -/
def tableFiveLogicalSwappedAfter : PartNotes :=
  sampleTable 5 [sampleNote LOGICAL true 10, sampleNote PRIMARY true 0,
    sampleNote LOGICAL true 20, sampleNote LOGICAL true 30, sampleNote LOGICAL true 40]

/-- A `WILL_NOT_CONVERT` note at sector 0 followed by a `PRIMARY` note, each with
a free sector before it; original table size 2. -/
def tableEP : PartNotes :=
  sampleTable 2 [sampleNote WILL_NOT_CONVERT true 0, sampleNote PRIMARY true 10]

/-- The table `tableEP` with its first note turned `PRIMARY`. -/
def tableEPAfter : PartNotes :=
  sampleTable 2 [sampleNote PRIMARY true 0, sampleNote PRIMARY true 10]

/-- Six `PRIMARY` notes with a `WILL_NOT_CONVERT` note after the first one, in disk
order; original table size 7. -/
def tableSixPrimaries : PartNotes :=
  sampleTable 7 [sampleNote PRIMARY true 0, sampleNote WILL_NOT_CONVERT true 10,
    sampleNote PRIMARY true 20, sampleNote PRIMARY true 30, sampleNote PRIMARY true 40,
    sampleNote PRIMARY true 50, sampleNote PRIMARY true 60]

/-- The table `tableSixPrimaries` with its last two notes turned
`WILL_NOT_CONVERT`. -/
def tableSixPrimariesAfter : PartNotes :=
  sampleTable 7 [sampleNote PRIMARY true 0, sampleNote WILL_NOT_CONVERT true 10,
    sampleNote PRIMARY true 20, sampleNote PRIMARY true 30, sampleNote PRIMARY true 40,
    sampleNote WILL_NOT_CONVERT true 50, sampleNote WILL_NOT_CONVERT true 60]

/-- Five `LOGICAL` notes in disk order, each with a free sector before it;
original table size 5. -/
def tableFiveLogical : PartNotes :=
  sampleTable 5 [sampleNote LOGICAL true 0, sampleNote LOGICAL true 10,
    sampleNote LOGICAL true 20, sampleNote LOGICAL true 30, sampleNote LOGICAL true 40]

/-- The table `tableFiveLogical` with its first note turned `PRIMARY`. -/
def tableFiveLogicalAfter : PartNotes :=
  sampleTable 5 [sampleNote PRIMARY true 0, sampleNote LOGICAL true 10,
    sampleNote LOGICAL true 20, sampleNote LOGICAL true 30, sampleNote LOGICAL true 40]

/-- Four `PRIMARY` notes and a `WILL_NOT_CONVERT` note, in disk order, each with a
free sector before it; original table size 5. -/
def tablePPPPE : PartNotes :=
  sampleTable 5 [sampleNote PRIMARY true 0, sampleNote PRIMARY true 10,
    sampleNote PRIMARY true 20, sampleNote PRIMARY true 30,
    sampleNote WILL_NOT_CONVERT true 40]

/-- Three notes with the extents 0-9, 10-19 and 0-9, the third one `LOGICAL`. -/
def tableDuplicateApart : PartNotes :=
  sampleTable 3 [sampleNote PRIMARY true 0, sampleNote PRIMARY true 10,
    sampleNote LOGICAL true 0]

theorem legalLogicalsLoop_iff (b : Bool) (l : List PartInfo) :
    legalLogicalsLoop b l = true ↔
      b = true ∧ ∀ x ∈ l, x.type = LOGICAL → x.spaceBefore = true := by
  induction l generalizing b with
  | nil => simp [legalLogicalsLoop]
  | cons x r ih =>
    rw [legalLogicalsLoop, ih]
    cases hs : x.spaceBefore <;> by_cases ht : x.type = LOGICAL <;> simp [hs, ht]

theorem isLegal_iff (s : PartNotes) :
    s.IsLegal = true ↔
      s.GetNumPrimary + s.GetNumExtended ≤ 4 ∧ s.GetNumExtended ≤ 1 ∧
        ∀ x ∈ s.notes, x.type = LOGICAL → x.spaceBefore = true := by
  simp [PartNotes.IsLegal, legalLogicalsLoop_iff, and_assoc]

/-- C5: `IsLegal` returns true exactly when the primaries and the extended
partitions together number at most four, there is at most one extended
partition, and every `LOGICAL` note has `spaceBefore` set; on the empty list it
returns true. -/
theorem C5_isLegal_characterisation :
    (∀ s : PartNotes, s.IsLegal = true ↔
      (s.GetNumPrimary + s.GetNumExtended ≤ 4 ∧ s.GetNumExtended ≤ 1 ∧
        ∀ x ∈ s.notes, x.type = LOGICAL → x.spaceBefore = true)) ∧
    (∀ s : PartNotes, s.notes = [] → s.IsLegal = true) := by
  refine ⟨isLegal_iff, ?_⟩
  intro s hs
  rw [isLegal_iff]
  simp [PartNotes.GetNumPrimary, PartNotes.GetNumExtended, hs, numPrimaryLoop, numExtendedLoop]

/-! ### GetNumExtended -/

theorem isLogicalAt_zero (x : PartInfo) (r : List PartInfo) :
    isLogicalAt (x :: r) 0 = decide (x.type = LOGICAL) := by
  simp [isLogicalAt]

theorem isLogicalAt_succ (x : PartInfo) (r : List PartInfo) (i : Nat) :
    isLogicalAt (x :: r) (i + 1) = isLogicalAt r i := by
  simp [isLogicalAt]

theorem logicalRunsAfter_nil (b : Bool) : logicalRunsAfter b [] = 0 := by
  simp [logicalRunsAfter]

theorem logicalRunsAfter_cons (b : Bool) (x : PartInfo) (r : List PartInfo) :
    logicalRunsAfter b (x :: r) =
      (if x.type = LOGICAL ∧ b = false then 1 else 0) +
        logicalRunsAfter (decide (x.type = LOGICAL)) r := by
  unfold logicalRunsAfter
  rw [List.length_cons, List.range_succ_eq_map, List.filter_cons, List.filter_map]
  have hcongr : List.filter
      ((fun i => isLogicalAt (x :: r) i &&
        (if i = 0 then !b else !isLogicalAt (x :: r) (i - 1))) ∘ Nat.succ)
      (List.range r.length) =
      List.filter (fun i => isLogicalAt r i &&
        (if i = 0 then !decide (x.type = LOGICAL) else !isLogicalAt r (i - 1)))
      (List.range r.length) := by
    apply List.filter_congr
    intro i _
    cases i with
    | zero => simp [isLogicalAt]
    | succ k => simp [isLogicalAt]
  rw [hcongr]
  by_cases hx : x.type = LOGICAL <;> cases b <;>
    simp [isLogicalAt, hx, List.length_map, Nat.add_comm]

theorem logicalRuns_eq_after (l : List PartInfo) : logicalRuns l = logicalRunsAfter false l := by
  unfold logicalRuns logicalRunsAfter
  congr 1
  apply List.filter_congr
  intro i _
  cases i <;> simp

theorem numExtendedLoop_filter (b : Bool) (l : List PartInfo) :
    numExtendedLoop b (l.filter (fun x => decide (x.type ≠ WILL_NOT_CONVERT))) =
      numExtendedLoop b l := by
  induction l generalizing b with
  | nil => rfl
  | cons x r ih =>
    cases hx : x.type <;> simpa [List.filter_cons, hx, numExtendedLoop] using ih _

theorem numExtendedLoop_eq_runs (b : Bool) (l : List PartInfo)
    (h : ∀ x ∈ l, x.type ≠ WILL_NOT_CONVERT) :
    numExtendedLoop b l = logicalRunsAfter b l := by
  induction l generalizing b with
  | nil => simp [numExtendedLoop, logicalRunsAfter_nil]
  | cons x r ih =>
    have hr : ∀ y ∈ r, y.type ≠ WILL_NOT_CONVERT := fun y hy => h y (List.mem_cons_of_mem _ hy)
    have hx := h x (List.mem_cons_self _ _)
    rw [logicalRunsAfter_cons]
    cases ht : x.type with
    | PRIMARY => simp [numExtendedLoop, ht, ih _ hr]
    | LOGICAL => cases b <;> simp [numExtendedLoop, ht, ih _ hr]
    | WILL_NOT_CONVERT => exact absurd ht hx

/-- C6, as stated, fails: for the types `LOGICAL, WILL_NOT_CONVERT, LOGICAL` there
are two maximal runs of consecutive `LOGICAL` notes, but `GetNumExtended`
returns 1. -/
theorem C6_excluded_does_not_separate :
    tableLEL.GetNumExtended = 1 ∧ logicalRuns tableLEL.notes = 2 ∧
      tableLEL.GetNumExtended ≠ logicalRuns tableLEL.notes := by
  decide

/-- C6, amended: `GetNumExtended` is the number of maximal runs of consecutive
`LOGICAL` notes in the list with its `WILL_NOT_CONVERT` notes left out: only a
`PRIMARY` note separates two runs. -/
theorem C6_getNumExtended_runs (s : PartNotes) :
    s.GetNumExtended =
      logicalRuns (s.notes.filter (fun x => decide (x.type ≠ WILL_NOT_CONVERT))) := by
  rw [logicalRuns_eq_after, ← numExtendedLoop_eq_runs, numExtendedLoop_filter]
  · rfl
  · intro x hx
    simpa using (List.mem_filter.mp hx).2

/-! ### RemoveDuplicates -/

theorem sameExtents_iff (a b : PartInfo) :
    sameExtents a b = true ↔ a.firstLBA = b.firstLBA ∧ a.lastLBA = b.lastLBA := by
  simp [sameExtents]

theorem removeMatching_cases (a : PartInfo) (l next : List PartInfo) :
    (removeMatching a next l = next ∧ ∀ x ∈ l, sameExtents a x = false) ∨
      (removeMatching a next l <:+ l ∧
        ∀ x ∈ removeMatching a next l, sameExtents a x = false) := by
  induction l generalizing next with
  | nil => left; simp [removeMatching]
  | cons n2 r ih =>
    by_cases h : a.firstLBA = n2.firstLBA ∧ a.lastLBA = n2.lastLBA
    · rw [removeMatching, if_pos h]
      right
      rcases ih r with ⟨h1, h2⟩ | ⟨h1, h2⟩
      · rw [h1]
        exact ⟨List.suffix_cons n2 r, h2⟩
      · exact ⟨h1.trans (List.suffix_cons n2 r), h2⟩
    · rw [removeMatching, if_neg h]
      have hs : sameExtents a n2 = false := by
        cases hb : sameExtents a n2
        · rfl
        · exact absurd ((sameExtents_iff a n2).mp hb) h
      rcases ih next with ⟨h1, h2⟩ | ⟨h1, h2⟩
      · left
        refine ⟨h1, ?_⟩
        intro x hx
        rcases List.mem_cons.mp hx with h3 | h3
        · rw [h3]; exact hs
        · exact h2 x h3
      · right
        exact ⟨h1.trans (List.suffix_cons n2 r), h2⟩

theorem removeMatching_spec (a : PartInfo) (r : List PartInfo) :
    removeMatching a r r <:+ r ∧ ∀ x ∈ removeMatching a r r, sameExtents a x = false := by
  rcases removeMatching_cases a r r with ⟨h1, h2⟩ | ⟨h1, h2⟩
  · rw [h1]
    exact ⟨List.suffix_refl r, h2⟩
  · exact ⟨h1, h2⟩

theorem removeMatching_of_none (a : PartInfo) (l next : List PartInfo)
    (h : ∀ x ∈ l, sameExtents a x = false) : removeMatching a next l = next := by
  induction l generalizing next with
  | nil => rfl
  | cons n2 r ih =>
    have hs := h n2 (List.mem_cons_self _ _)
    have hn : ¬ (a.firstLBA = n2.firstLBA ∧ a.lastLBA = n2.lastLBA) := by
      intro hh
      rw [(sameExtents_iff a n2).mpr hh] at hs
      cases hs
    rw [removeMatching, if_neg hn]
    exact ih next (fun x hx => h x (List.mem_cons_of_mem _ hx))

theorem removeDuplicatesLoop_sublist_distinct (n : Nat) :
    ∀ l : List PartInfo, l.length ≤ n →
      List.Sublist (removeDuplicatesLoop l) l ∧
        List.Pairwise (fun a b => sameExtents a b = false) (removeDuplicatesLoop l) := by
  induction n with
  | zero =>
    intro l hl
    have : l = [] := List.length_eq_zero.mp (by omega)
    subst this
    rw [removeDuplicatesLoop]
    exact ⟨List.Sublist.refl _, List.Pairwise.nil⟩
  | succ k ih =>
    intro l hl
    cases l with
    | nil =>
      rw [removeDuplicatesLoop]
      exact ⟨List.Sublist.refl _, List.Pairwise.nil⟩
    | cons a r =>
      obtain ⟨h1, h2⟩ := removeMatching_spec a r
      have hlen : (removeMatching a r r).length ≤ k := by
        have := h1.length_le
        simp only [List.length_cons] at hl
        omega
      obtain ⟨h3, h4⟩ := ih (removeMatching a r r) hlen
      rw [removeDuplicatesLoop]
      refine ⟨List.Sublist.cons₂ a (h3.trans h1.sublist), ?_⟩
      exact List.Pairwise.cons (fun y hy => h2 y (h3.subset hy)) h4

theorem removeDuplicatesLoop_sublist (l : List PartInfo) :
    List.Sublist (removeDuplicatesLoop l) l :=
  (removeDuplicatesLoop_sublist_distinct l.length l (le_refl _)).1

theorem removeDuplicatesLoop_distinct (l : List PartInfo) :
    List.Pairwise (fun a b => sameExtents a b = false) (removeDuplicatesLoop l) :=
  (removeDuplicatesLoop_sublist_distinct l.length l (le_refl _)).2

theorem removeDuplicatesLoop_of_distinct (l : List PartInfo)
    (h : List.Pairwise (fun a b => sameExtents a b = false) l) :
    removeDuplicatesLoop l = l := by
  induction l with
  | nil => rw [removeDuplicatesLoop]
  | cons a r ih =>
    rw [List.pairwise_cons] at h
    rw [removeDuplicatesLoop, removeMatching_of_none a r r h.1, ih h.2]

theorem movePointer_zero (n1 : PartInfo) (r : List PartInfo) (k : Nat) (c : NotePointer) :
    movePointer n1 r k 0 c = c := by
  cases c with
  | null => rfl
  | leftBehind note chain => rfl
  | deleted => rfl
  | inList p =>
    simp only [movePointer, Nat.add_zero, Nat.sub_zero]
    split
    · rfl
    · rfl

theorem removeDuplicatesPointer_of_distinct (l : List PartInfo) (k : Nat) (c : NotePointer)
    (h : List.Pairwise (fun a b => sameExtents a b = false) l) :
    removeDuplicatesPointer k l c = c := by
  induction l generalizing k with
  | nil => rw [removeDuplicatesPointer]
  | cons a r ih =>
    rw [List.pairwise_cons] at h
    rw [removeDuplicatesPointer, removeMatching_of_none a r r h.1, Nat.sub_self,
      movePointer_zero, ih (k + 1) h.2]

theorem removeDuplicates_of_distinct (s : PartNotes)
    (h : s.notes.Pairwise (fun a b => sameExtents a b = false)) : s.RemoveDuplicates = s := by
  unfold PartNotes.RemoveDuplicates
  rw [removeDuplicatesLoop_of_distinct s.notes h, removeDuplicatesPointer_of_distinct s.notes 0 _ h]

/-- C9 on `tableDuplicateApart` (extents 0-9, 10-19, 0-9): the third note has
the extents of the first one, and `n1->next = n2->next` unlinks the second note
together with it. `RemoveDuplicates` leaves the first note alone, although the
second note is the only one with its extents and is the first occurrence of
them; the list of first occurrences has two notes. -/
theorem C9_removeDuplicates_unlinks_notes_between :
    tableDuplicateApart.RemoveDuplicates.notes = [sampleNote PRIMARY true 0] ∧
      firstOccurrencesFrom [] tableDuplicateApart.notes =
        [sampleNote PRIMARY true 0, sampleNote PRIMARY true 10] ∧
      sampleNote PRIMARY true 10 ∈ tableDuplicateApart.notes ∧
      (∀ y ∈ tableDuplicateApart.notes,
        sameExtents y (sampleNote PRIMARY true 10) = true → y = sampleNote PRIMARY true 10) ∧
      sampleNote PRIMARY true 10 ∉ tableDuplicateApart.RemoveDuplicates.notes := by
  have h : tableDuplicateApart.RemoveDuplicates.notes = [sampleNote PRIMARY true 0] := by
    have hm : removeMatching (sampleNote PRIMARY true 0)
        [sampleNote PRIMARY true 10, sampleNote LOGICAL true 0]
        [sampleNote PRIMARY true 10, sampleNote LOGICAL true 0] = [] := by decide
    show removeDuplicatesLoop [sampleNote PRIMARY true 0, sampleNote PRIMARY true 10,
      sampleNote LOGICAL true 0] = [sampleNote PRIMARY true 0]
    rw [removeDuplicatesLoop, hm, removeDuplicatesLoop]
  refine ⟨h, by decide, by decide, by decide, ?_⟩
  rw [h]
  decide

/-- C10: `RemoveDuplicates` is idempotent: a second call leaves the state
produced by the first one as it is. -/
theorem C10_removeDuplicates_idempotent (s : PartNotes) :
    s.RemoveDuplicates.RemoveDuplicates = s.RemoveDuplicates :=
  removeDuplicates_of_distinct s.RemoveDuplicates (removeDuplicatesLoop_distinct s.notes)

/-! ### ChangeType -/

theorem walkModify_cons (f : PartInfo → PartInfo) (partNum count : Int) (x : PartInfo)
    (r : List PartInfo) : ∃ y t, walkModify f partNum count (x :: r) = y :: t := by
  cases r with
  | nil => exact ⟨f x, [], by simp [walkModify]⟩
  | cons y t =>
    by_cases h : count < partNum
    · exact ⟨x, walkModify f partNum (count + 1) (y :: t), by simp [walkModify, h]⟩
    · exact ⟨f x, y :: t, by simp [walkModify, h]⟩

theorem walkModify_walkModify (f g : PartInfo → PartInfo) (partNum : Int) (count : Int)
    (l : List PartInfo) :
    walkModify f partNum count (walkModify g partNum count l) =
      walkModify (fun n => f (g n)) partNum count l := by
  induction l generalizing count with
  | nil => simp [walkModify]
  | cons x r ih =>
    cases r with
    | nil => simp [walkModify]
    | cons y t =>
      by_cases h : count < partNum
      · simp only [walkModify, h, if_true]
        obtain ⟨y1, t1, hyt⟩ := walkModify_cons g partNum (count + 1) y t
        rw [← ih (count + 1), hyt]
        simp [walkModify, h]
      · simp [walkModify, h]

theorem walkModify_restore (partNum count : Int) (l : List PartInfo) (n : PartInfo)
    (h : walkGet partNum count l = some n) :
    walkModify (fun m => { m with type := n.type }) partNum count l = l := by
  induction l generalizing count with
  | nil => simp [walkModify]
  | cons x r ih =>
    cases r with
    | nil =>
      simp only [walkGet, Option.some.injEq] at h
      subst h
      simp [walkModify]
    | cons y t =>
      by_cases hc : count < partNum
      · simp only [walkGet, hc, if_true] at h
        simp [walkModify, hc, ih (count + 1) h]
      · simp only [walkGet, hc, if_false, Option.some.injEq] at h
        subst h
        simp [walkModify, hc]

theorem walkGet_isSome (partNum count : Int) (l : List PartInfo) (h : l ≠ []) :
    ∃ n, walkGet partNum count l = some n := by
  induction l generalizing count with
  | nil => exact absurd rfl h
  | cons x r ih =>
    cases r with
    | nil => exact ⟨x, by simp [walkGet]⟩
    | cons y t =>
      by_cases hc : count < partNum
      · obtain ⟨n, hn⟩ := ih (count + 1) (by simp)
        exact ⟨n, by simp [walkGet, hc, hn]⟩
      · exact ⟨x, by simp [walkGet, hc]⟩

theorem setType_setType_getType (s : PartNotes) (partNum : Int) (newType : PartType) :
    (s.SetType partNum newType).SetType partNum (s.GetType partNum) = s := by
  cases s with
  | mk notes sz cn ci =>
    simp only [PartNotes.SetType, PartNotes.GetType, walkModify_walkModify]
    cases hn : notes with
    | nil => simp [walkModify]
    | cons x r =>
      obtain ⟨n, hget⟩ := walkGet_isSome partNum 0 (x :: r) (by simp)
      rw [hget]
      simp only
      rw [walkModify_restore partNum 0 (x :: r) n hget]

theorem changeType_fst (s : PartNotes) (partNum : Int) (newType : PartType) :
    (s.ChangeType partNum newType).1 = true ↔ (s.notes ≠ [] ∧ s.IsLegal = true) := by
  unfold PartNotes.ChangeType
  by_cases h : s.notes ≠ [] ∧ s.IsLegal = true
  · simp only [h, ne_eq, not_false_eq_true, and_self, if_true]
    split <;> simp
  · simp only [if_neg h]
    simp [h]

theorem changeType_snd (s : PartNotes) (partNum : Int) (newType : PartType) :
    (s.ChangeType partNum newType).2 =
      if s.notes ≠ [] ∧ s.IsLegal = true ∧ (s.SetType partNum newType).IsLegal = true then
        s.SetType partNum newType
      else s := by
  unfold PartNotes.ChangeType
  by_cases h : s.notes ≠ [] ∧ s.IsLegal = true
  · rw [if_pos h]
    by_cases h2 : (s.SetType partNum newType).IsLegal = true
    · simp [h, h2]
    · simp only [h2, h, true_and, and_false, if_false]
      simp [setType_setType_getType]
  · rw [if_neg h]
    have : ¬ (s.notes ≠ [] ∧ s.IsLegal = true ∧ (s.SetType partNum newType).IsLegal = true) :=
      fun hh => h ⟨hh.1, hh.2.1⟩
    rw [if_neg this]

/-- C3: `ChangeType` returns 1 exactly when the list is non-empty and legal
before the call, and whenever it returns 1 the state it leaves is legal, the
change having been kept or reverted. -/
theorem C3_changeType_preserves_legality (s : PartNotes) (partNum : Int)
    (newType : PartType) :
    ((s.ChangeType partNum newType).1 = true ↔ (s.notes ≠ [] ∧ s.IsLegal = true)) ∧
      ((s.ChangeType partNum newType).1 = true →
        (s.ChangeType partNum newType).2.IsLegal = true) := by
  refine ⟨changeType_fst s partNum newType, ?_⟩
  intro h
  have hs := (changeType_fst s partNum newType).mp h
  rw [changeType_snd]
  by_cases h2 : (s.SetType partNum newType).IsLegal = true
  · rw [if_pos ⟨hs.1, hs.2, h2⟩]; exact h2
  · rw [if_neg (fun hh => h2 hh.2.2)]; exact hs.2

/-- C3 at two concrete calls on `tablePP`: turning the second note `LOGICAL` is
reverted, dropping it is kept; both return 1 and leave a legal table. -/
theorem C3_changeType_preserves_legality_witness :
    (tablePP.ChangeType 1 LOGICAL).1 = true ∧
      (tablePP.ChangeType 1 LOGICAL).2.IsLegal = true ∧
      (tablePP.ChangeType 1 WILL_NOT_CONVERT).1 = true ∧
      (tablePP.ChangeType 1 WILL_NOT_CONVERT).2.IsLegal = true :=
  ⟨by decide,
   (C3_changeType_preserves_legality tablePP 1 LOGICAL).2 (by decide),
   by decide,
   (C3_changeType_preserves_legality tablePP 1 WILL_NOT_CONVERT).2 (by decide)⟩

/-- C4: when the list is empty or illegal before the call, or the requested
type would make it illegal, `ChangeType` leaves the whole state as it was. -/
theorem C4_changeType_rollback (s : PartNotes) (partNum : Int) (newType : PartType)
    (h : s.notes = [] ∨ s.IsLegal = false ∨ (s.SetType partNum newType).IsLegal = false) :
    (s.ChangeType partNum newType).2 = s := by
  rw [changeType_snd]
  apply if_neg
  rintro ⟨h1, h2, h3⟩
  rcases h with h | h | h
  · exact h1 h
  · rw [h2] at h; cases h
  · rw [h3] at h; cases h

/-- C4 on `tablePP`: the second note, `PRIMARY` without a free sector before
it, is asked to become `LOGICAL`; the tentative state is illegal and the table
is left as it was, the note `PRIMARY` again. -/
theorem C4_changeType_rollback_witness :
    (tablePP.SetType 1 LOGICAL).IsLegal = false ∧
      (tablePP.ChangeType 1 LOGICAL).2 = tablePP ∧
      (tablePP.ChangeType 1 LOGICAL).2.GetType 1 = PRIMARY :=
  ⟨by decide,
   C4_changeType_rollback tablePP 1 LOGICAL (Or.inr (Or.inr (by decide))),
   by decide⟩

/-! ### MakeItLegal: what it returns -/

theorem makeItLegal_unfold (fuel : Nat) (s : PartNotes)
    (h : s.notes.Pairwise (fun a b => sameExtents a b = false)) :
    s.MakeItLegal fuel =
      if s.notes = [] then some (false, s)
      else
        match s.cutToLegal fuel with
        | some t => some (t.allPrimaryIfFew.firstToPrimary.IsLegal, t.allPrimaryIfFew.firstToPrimary)
        | none => none := by
  unfold PartNotes.MakeItLegal
  rw [removeDuplicates_of_distinct s h]

/-- C2: when `MakeItLegal` returns 1 the list was not empty and the state left
is legal; on the empty list it returns 0 and leaves it as it is, although
`IsLegal` holds there. -/
theorem C2_makeItLegal_no_false_success (fuel : Nat) (s : PartNotes) :
    (∀ t : PartNotes, s.MakeItLegal fuel = some (true, t) →
      s.notes ≠ [] ∧ t.IsLegal = true) ∧
    (({ s with notes := [] } : PartNotes).MakeItLegal fuel =
        some (false, { s with notes := [] }) ∧
      ({ s with notes := [] } : PartNotes).IsLegal = true) := by
  refine ⟨?_, ?_, ?_⟩
  · intro t h
    unfold PartNotes.MakeItLegal at h
    by_cases hn : s.notes = []
    · rw [if_pos hn] at h
      simp at h
    · rw [if_neg hn] at h
      refine ⟨hn, ?_⟩
      cases hc : s.RemoveDuplicates.cutToLegal fuel with
      | none => rw [hc] at h; simp at h
      | some u =>
        rw [hc] at h
        simp only [Option.some.injEq, Prod.mk.injEq] at h
        rw [← h.2]
        exact h.1
  · simp [PartNotes.MakeItLegal]
  · simp [PartNotes.IsLegal, PartNotes.GetNumPrimary, PartNotes.GetNumExtended, numPrimaryLoop,
      numExtendedLoop, legalLogicalsLoop]

/-- C2 on `tableLLLPLL`: `MakeItLegal` returns 1 there, the list is not empty
and the state left, `tableLLLPPP`, is legal. -/
theorem C2_makeItLegal_no_false_success_witness :
    tableLLLPLL.notes ≠ [] ∧ tableLLLPPP.IsLegal = true :=
  (C2_makeItLegal_no_false_success 2 tableLLLPLL).1 tableLLLPPP
    (by rw [makeItLegal_unfold _ _ (by decide)]; decide)

/-! ### The loop of TrimSmallestExtended passes -/

theorem trimLoop_stuck (s : PartNotes) (h1 : s.GetNumExtended > 1)
    (h2 : s.TrimSmallestExtended = s) (fuel : Nat) : trimLoop fuel s = none := by
  induction fuel with
  | zero => simp [trimLoop, h1]
  | succ k ih => simp [trimLoop, h1, h2, ih]

/-- C8 on `tableLLLPLL` (types `LOGICAL, LOGICAL, LOGICAL, PRIMARY, LOGICAL,
LOGICAL`, original table size 6): `GetNumExtended` is 2 before one call of
`TrimSmallestExtended` and still 2 after it, because only the first note of the
second run is turned `PRIMARY`. -/
theorem C8_trim_keeps_group_count :
    tableLLLPLL.GetNumExtended = 2 ∧
      tableLLLPLL.TrimSmallestExtended.GetNumExtended = 2 ∧
      tableLLLPLL.FindExtended 4 = (1, 4) ∧
      tableLLLPLL.TrimSmallestExtended.notes.map (fun n => n.type) =
        [LOGICAL, LOGICAL, LOGICAL, PRIMARY, PRIMARY, LOGICAL] := by
  decide

/-- C7 on two tables. On `tablePLPLE` (original table size 0) one call of
`TrimSmallestExtended` changes nothing while `GetNumExtended` is 2, so the
loop never ends, whatever number of passes is allowed, and `MakeItLegal` never
returns. On `tableLELELPL` (original table size 7) `GetNumExtended` is 2 when
the loop is entered, two passes do not end it, and the third one does. -/
theorem C7_trim_loop_diverges_or_exceeds_bound :
    (tablePLPLE.GetNumExtended = 2 ∧ tablePLPLE.TrimSmallestExtended = tablePLPLE ∧
      (∀ fuel : Nat, trimLoop fuel tablePLPLE = none) ∧
      (∀ fuel : Nat, tablePLPLE.MakeItLegal fuel = none)) ∧
    (tableLELELPL.GetNumExtended = 2 ∧ trimLoop 2 tableLELELPL = none ∧
      (trimLoop 3 tableLELELPL).isSome = true) := by
  have h1 : tablePLPLE.GetNumExtended > 1 := by decide
  have h2 : tablePLPLE.TrimSmallestExtended = tablePLPLE := by decide
  have h3 : ∀ fuel : Nat, trimLoop fuel tablePLPLE = none := trimLoop_stuck _ h1 h2
  refine ⟨⟨by decide, h2, h3, ?_⟩, by decide, by decide, by decide⟩
  intro fuel
  rw [makeItLegal_unfold _ _ (by decide)]
  have h5 : tablePLPLE.IsLegal = false := by decide
  have h6 : tablePLPLE.notes ≠ [] := by decide
  simp [PartNotes.cutToLegal, h3, h5, h6]

/-! ### Counting lemmas -/

theorem numExtendedLoop_true_le (l : List PartInfo) :
    numExtendedLoop true l ≤ numExtendedLoop false l ∧
      numExtendedLoop false l ≤ numExtendedLoop true l + 1 := by
  induction l with
  | nil => simp [numExtendedLoop]
  | cons x r ih =>
    cases hx : x.type <;> simp [numExtendedLoop, hx] <;> omega

theorem numExtendedLoop_le_numLogical (b : Bool) (l : List PartInfo) :
    numExtendedLoop b l ≤ numLogicalLoop l := by
  induction l generalizing b with
  | nil => simp [numExtendedLoop, numLogicalLoop]
  | cons x r ih =>
    cases hx : x.type
    · have := ih false
      simp [numExtendedLoop, numLogicalLoop, hx]; omega
    · have := ih true
      cases b <;> simp [numExtendedLoop, numLogicalLoop, hx] <;> omega
    · have := ih b
      simp [numExtendedLoop, numLogicalLoop, hx]; omega

theorem numPrimaryLoop_append (l1 l2 : List PartInfo) :
    numPrimaryLoop (l1 ++ l2) = numPrimaryLoop l1 + numPrimaryLoop l2 := by
  induction l1 with
  | nil => simp [numPrimaryLoop]
  | cons x r ih => simp [numPrimaryLoop, ih]; omega

theorem numLogicalLoop_append (l1 l2 : List PartInfo) :
    numLogicalLoop (l1 ++ l2) = numLogicalLoop l1 + numLogicalLoop l2 := by
  induction l1 with
  | nil => simp [numLogicalLoop]
  | cons x r ih => simp [numLogicalLoop, ih]; omega

theorem numPrimaryLoop_le_length (l : List PartInfo) : numPrimaryLoop l ≤ l.length := by
  induction l with
  | nil => simp [numPrimaryLoop]
  | cons x r ih => simp only [numPrimaryLoop, List.length_cons]; split <;> omega

theorem numLogicalLoop_le_length (l : List PartInfo) : numLogicalLoop l ≤ l.length := by
  induction l with
  | nil => simp [numLogicalLoop]
  | cons x r ih => simp only [numLogicalLoop, List.length_cons]; split <;> omega

/-! ### Notes that only changed their type -/

theorem retyped_refl (a : PartInfo) : Retyped a a :=
  ⟨Or.inl rfl, rfl, rfl, rfl, rfl, rfl, rfl⟩

theorem retyped_trans {a b c : PartInfo} (h1 : Retyped a b) (h2 : Retyped b c) :
    Retyped a c := by
  obtain ⟨h1a, h1b, h1c, h1d, h1e, h1f, h1g⟩ := h1
  obtain ⟨h2a, h2b, h2c, h2d, h2e, h2f, h2g⟩ := h2
  refine ⟨?_, h2b.trans h1b, h2c.trans h1c, h2d.trans h1d, h2e.trans h1e, h2f.trans h1f,
    h2g.trans h1g⟩
  rcases h2a with h | h
  · rw [h]; exact h1a
  · exact Or.inr h

theorem retyped_setType (a : PartInfo) (t : PartType) (ht : t ≠ LOGICAL) :
    Retyped a { a with type := t } :=
  ⟨Or.inr ht, rfl, rfl, rfl, rfl, rfl, rfl⟩

theorem forall2_retyped_refl (l : List PartInfo) : List.Forall₂ Retyped l l := by
  induction l with
  | nil => exact List.Forall₂.nil
  | cons x r ih => exact List.Forall₂.cons (retyped_refl x) ih

theorem forall2_retyped_trans {l1 l2 l3 : List PartInfo} (h1 : List.Forall₂ Retyped l1 l2)
    (h2 : List.Forall₂ Retyped l2 l3) : List.Forall₂ Retyped l1 l3 := by
  induction h1 generalizing l3 with
  | nil => cases h2; exact List.Forall₂.nil
  | cons hab _ ih =>
    cases h2 with
    | cons hbc hrest => exact List.Forall₂.cons (retyped_trans hab hbc) (ih hrest)

theorem forall2_retyped_append {l1 l2 m1 m2 : List PartInfo} (h1 : List.Forall₂ Retyped l1 m1)
    (h2 : List.Forall₂ Retyped l2 m2) : List.Forall₂ Retyped (l1 ++ l2) (m1 ++ m2) := by
  induction h1 with
  | nil => simpa using h2
  | cons hab _ ih => exact List.Forall₂.cons hab ih

theorem forall2_retyped_mem {l m : List PartInfo} (h : List.Forall₂ Retyped l m) :
    ∀ y ∈ m, ∃ x ∈ l, Retyped x y := by
  induction h with
  | nil => intro y hy; cases hy
  | cons hab _ ih =>
    intro y hy
    rcases List.mem_cons.mp hy with h | h
    · subst h; exact ⟨_, List.mem_cons_self _ _, hab⟩
    · obtain ⟨x, hx, hxy⟩ := ih y h
      exact ⟨x, List.mem_cons_of_mem _ hx, hxy⟩

theorem logicalsHaveSpace_of_retyped {l m : List PartInfo} (h : List.Forall₂ Retyped l m)
    (hl : LogicalsHaveSpace l) : LogicalsHaveSpace m := by
  intro y hy hty
  obtain ⟨x, hx, hxy⟩ := forall2_retyped_mem h y hy
  rcases hxy.1 with h1 | h1
  · subst h1; exact hl _ hx hty
  · exact absurd hty h1

theorem firstStartsFirst_of_retyped {l m : List PartInfo} (h : List.Forall₂ Retyped l m)
    (hl : FirstStartsFirst l) : FirstStartsFirst m := by
  cases h with
  | nil => exact trivial
  | cons hab hrest =>
    intro y hy
    obtain ⟨x, hx, hxy⟩ := forall2_retyped_mem hrest y hy
    have := hl x hx
    rw [hab.2.2.1, hxy.2.2.1]
    exact this

theorem numLogicalLoop_of_retyped {l m : List PartInfo} (h : List.Forall₂ Retyped l m) :
    numLogicalLoop m ≤ numLogicalLoop l := by
  induction h with
  | nil => simp
  | cons hab _ ih =>
    rename_i a b l1 l2
    simp only [numLogicalLoop]
    rcases hab.1 with h1 | h1
    · subst h1; omega
    · simp only [h1, if_false]; omega

/-! ### FindExtended -/

theorem findSkipLoop_skip (start : Int) (q : Nat) (l : List PartInfo) (next : Int)
    (hq : q < l.length) (hs : next + q ≤ start) :
    findSkipLoop start next l = findSkipLoop start (next + q) (l.drop q) := by
  induction q generalizing l next with
  | zero => simp
  | succ k ih =>
    match l, hq with
    | x :: y :: r, hq =>
      have hlt : next < start := by push_cast at hs; omega
      have hk : k < (y :: r).length := by simp only [List.length_cons] at hq ⊢; omega
      have hs2 : next + 1 + (k : Int) ≤ start := by push_cast at hs; omega
      rw [findSkipLoop, if_pos (Or.inl hlt), ih (y :: r) (next + 1) hk hs2]
      have : next + 1 + (k : Int) = next + ((k + 1 : Nat) : Int) := by push_cast; omega
      rw [this]
      simp
    | [x], hq => simp at hq
    | [], hq => simp at hq

theorem findSkipLoop_reach (start : Int) (u : List PartInfo) (c : Int) (hc : start ≤ c)
    (hu : u ≠ []) :
    ∃ d : Nat, findSkipLoop start c u = (u.drop d, c + d) ∧ d < u.length ∧
      numExtendedLoop false (u.drop d) = numExtendedLoop false u ∧
      (1 ≤ numExtendedLoop false u → ∃ x r, u.drop d = x :: r ∧ x.type = LOGICAL) := by
  induction u generalizing c with
  | nil => exact absurd rfl hu
  | cons x r ih =>
    cases r with
    | nil =>
      refine ⟨0, by simp [findSkipLoop], by simp, rfl, ?_⟩
      intro h
      refine ⟨x, [], rfl, ?_⟩
      cases hx : x.type <;> simp [numExtendedLoop, hx] at h ⊢
    | cons y t =>
      by_cases hx : x.type = LOGICAL
      · refine ⟨0, ?_, by simp, rfl, fun _ => ⟨x, y :: t, rfl, hx⟩⟩
        have : ¬ (c < start ∨ x.type ≠ LOGICAL) := by
          rintro (h | h)
          · omega
          · exact h hx
        simp [findSkipLoop, this]
      · obtain ⟨d, h1, h2, h3, h4⟩ := ih (c + 1) (by omega) (by simp)
        have hn : numExtendedLoop false (x :: y :: t) = numExtendedLoop false (y :: t) := by
          cases hxt : x.type
          · simp [numExtendedLoop, hxt]
          · exact absurd hxt hx
          · simp [numExtendedLoop, hxt]
        refine ⟨d + 1, ?_, ?_, ?_, ?_⟩
        · rw [findSkipLoop, if_pos (Or.inr hx), h1]
          simp only [List.drop_succ_cons, Prod.mk.injEq, true_and]
          push_cast; omega
        · simp only [List.length_cons] at h2 ⊢; omega
        · rw [List.drop_succ_cons, h3, hn]
        · intro h
          rw [hn] at h
          simpa using h4 h

theorem findCountLoop_spec (w : List PartInfo) :
    ∃ len : Nat, findCountLoop w = (len : Int) ∧ (w ≠ [] → len < w.length) ∧
      numExtendedLoop true w ≤ numExtendedLoop false (w.drop len) := by
  induction w with
  | nil => exact ⟨0, by simp [findCountLoop], by simp, by simp [numExtendedLoop]⟩
  | cons x r ih =>
    cases r with
    | nil =>
      exact ⟨0, by simp [findCountLoop], by simp, (numExtendedLoop_true_le [x]).1⟩
    | cons y t =>
      by_cases hx : x.type = LOGICAL
      · obtain ⟨len, h1, h2, h3⟩ := ih
        refine ⟨len + 1, ?_, ?_, ?_⟩
        · rw [findCountLoop, if_pos hx, h1]; push_cast; omega
        · intro _
          have := h2 (by simp)
          simp only [List.length_cons] at this ⊢; omega
        · rw [List.drop_succ_cons]
          simpa [numExtendedLoop, hx] using h3
      · exact ⟨0, by simp [findCountLoop, hx], by simp,
          (numExtendedLoop_true_le (x :: y :: t)).1⟩

theorem findExtended_spec (s : PartNotes) (q : Nat) (hq : q < s.notes.length)
    (h1 : 1 ≤ numExtendedLoop false (s.notes.drop q)) :
    ∃ st len : Nat, s.FindExtended q = ((len : Int), (st : Int)) ∧
      st + len < s.notes.length ∧
      (∃ x r, s.notes.drop st = x :: r ∧ x.type = LOGICAL) ∧
      numExtendedLoop false (s.notes.drop q) ≤
        numExtendedLoop false (s.notes.drop (st + len)) + 1 := by
  have hne : s.notes ≠ [] := by
    intro h; rw [h] at hq; simp at hq
  have hu : s.notes.drop q ≠ [] := by
    intro h
    have := congrArg List.length h
    simp only [List.length_drop, List.length_nil] at this
    omega
  have hskip := findSkipLoop_skip (q : Int) q s.notes 0 hq (by simp)
  obtain ⟨d, hd1, hd2, hd3, hd4⟩ := findSkipLoop_reach (q : Int) (s.notes.drop q) (0 + q)
    (by simp) hu
  obtain ⟨len, hl1, hl2, hl3⟩ := findCountLoop_spec ((s.notes.drop q).drop d)
  obtain ⟨x, r, hxr, hxt⟩ := hd4 h1
  have hdd : (s.notes.drop q).drop d = s.notes.drop (q + d) := by
    rw [List.drop_drop]
  have hlen : ((s.notes.drop q).drop d).length = s.notes.length - (q + d) := by
    rw [hdd, List.length_drop]
  have hd2' : d < s.notes.length - q := by simpa using hd2
  have hl2' := hl2 (by rw [hxr]; simp)
  rw [hlen] at hl2'
  refine ⟨q + d, len, ?_, by omega, ⟨x, r, by rw [← hdd]; exact hxr, hxt⟩, ?_⟩
  · unfold PartNotes.FindExtended
    have hcond : s.notes ≠ [] ∧ (q : Int) ≥ 0 := ⟨hne, by omega⟩
    rw [if_pos hcond]
    simp only [hskip, hd1, hl1]
    simp
  · have h2 := (numExtendedLoop_true_le ((s.notes.drop q).drop d)).2
    have hdd2 : ((s.notes.drop q).drop d).drop len = s.notes.drop (q + d + len) := by
      rw [hdd, List.drop_drop]
    rw [hdd2] at hl3
    rw [← hd3]
    omega

/-! ### TrimSmallestExtended -/

theorem extendedsLoop_good (s : PartNotes) (k q : Nat) (hq : q < s.notes.length)
    (hk : k ≤ numExtendedLoop false (s.notes.drop q)) :
    ∀ e ∈ extendedsLoop s k q, ∃ st len : Nat, e.startNum = st ∧ e.numLogicals = len ∧
      st + len < s.notes.length ∧ ∃ x r, s.notes.drop st = x :: r ∧ x.type = LOGICAL := by
  induction k generalizing q with
  | zero => intro e he; simp [extendedsLoop] at he
  | succ k ih =>
    obtain ⟨st, len, hf, hlt, hlog, hnum⟩ := findExtended_spec s q hq (by omega)
    intro e he
    simp only [extendedsLoop, hf, List.mem_cons] at he
    rcases he with he | he
    · exact ⟨st, len, by rw [he], by rw [he], hlt, hlog⟩
    · have hcast : (st : Int) + (len : Int) = ((st + len : Nat) : Int) := by push_cast; rfl
      rw [hcast] at he
      exact ih (st + len) hlt (by omega) e he

theorem extendedsLoop_length (s : PartNotes) (k : Nat) (start : Int) :
    (extendedsLoop s k start).length = k := by
  induction k generalizing start with
  | zero => simp [extendedsLoop]
  | succ k ih => simp [extendedsLoop, ih]

theorem shortestLoop_cases (ext : List ExtendedInfo) (acc : Int × Int) :
    shortestLoop ext acc = acc ∨
      ∃ e ∈ ext, shortestLoop ext acc = (e.numLogicals, e.startNum) := by
  induction ext generalizing acc with
  | nil => exact Or.inl rfl
  | cons e r ih =>
    rw [shortestLoop]
    split
    · rcases ih (e.numLogicals, e.startNum) with h | ⟨e2, he2, h⟩
      · exact Or.inr ⟨e, List.mem_cons_self _ _, h⟩
      · exact Or.inr ⟨e2, List.mem_cons_of_mem _ he2, h⟩
    · rcases ih acc with h | ⟨e2, he2, h⟩
      · exact Or.inl h
      · exact Or.inr ⟨e2, List.mem_cons_of_mem _ he2, h⟩

theorem shortestLoop_found (ext : List ExtendedInfo) (acc : Int × Int)
    (h : ∃ e ∈ ext, e.numLogicals < acc.1) :
    ∃ e ∈ ext, shortestLoop ext acc = (e.numLogicals, e.startNum) := by
  induction ext generalizing acc with
  | nil => obtain ⟨e, he, _⟩ := h; cases he
  | cons e r ih =>
    rw [shortestLoop]
    split
    · rcases shortestLoop_cases r (e.numLogicals, e.startNum) with h2 | ⟨e2, he2, h2⟩
      · exact ⟨e, List.mem_cons_self _ _, h2⟩
      · exact ⟨e2, List.mem_cons_of_mem _ he2, h2⟩
    · rename_i hlt
      obtain ⟨e1, he1, hlt1⟩ := h
      rcases List.mem_cons.mp he1 with h3 | h3
      · subst h3; exact absurd hlt1 hlt
      · obtain ⟨e2, he2, h2⟩ := ih acc ⟨e1, h3, hlt1⟩
        exact ⟨e2, List.mem_cons_of_mem _ he2, h2⟩

theorem trimSeekLoop_reach (k : Nat) (pre : List PartInfo) (i : Int) (l : List PartInfo)
    (hk : k < l.length) :
    trimSeekLoop (i + k) pre i l = (pre ++ l.take k, i + k + 1, l.drop k) := by
  induction k generalizing pre i l with
  | zero =>
    match l, hk with
    | [x], _ => simp [trimSeekLoop]
    | x :: y :: r, _ => simp [trimSeekLoop]
  | succ k ih =>
    match l, hk with
    | [x], hk => simp at hk
    | x :: y :: r, hk =>
      have hlt : i < i + ((k + 1 : Nat) : Int) := by push_cast; omega
      have hk2 : k < (y :: r).length := by simp only [List.length_cons] at hk ⊢; omega
      have hcast : i + ((k + 1 : Nat) : Int) = i + 1 + (k : Int) := by push_cast; omega
      rw [trimSeekLoop, if_pos hlt, hcast, ih (pre ++ [x]) (i + 1) (y :: r) hk2]
      simp

theorem trimDoLoop_retyped (bound : Int) (rest pre : List PartInfo) (i : Int) :
    List.Forall₂ Retyped (pre ++ rest) (trimDoLoop bound pre i rest) := by
  induction rest generalizing pre i with
  | nil => simpa [trimDoLoop] using forall2_retyped_refl pre
  | cons x r ih =>
    have hx1 : Retyped x { x with type := if numPrimaryLoop (pre ++ x :: r) < 3 then PRIMARY
        else WILL_NOT_CONVERT } := by
      apply retyped_setType
      split <;> simp
    have hstep : List.Forall₂ Retyped (pre ++ x :: r)
        (pre ++ { x with type := if numPrimaryLoop (pre ++ x :: r) < 3 then PRIMARY
          else WILL_NOT_CONVERT } :: r) :=
      forall2_retyped_append (forall2_retyped_refl pre)
        (List.Forall₂.cons hx1 (forall2_retyped_refl r))
    rw [trimDoLoop]
    split
    · have := ih (pre ++ [{ x with type := if numPrimaryLoop (pre ++ x :: r) < 3 then PRIMARY
          else WILL_NOT_CONVERT }]) (i + 1)
      rw [List.append_assoc, List.singleton_append] at this
      exact forall2_retyped_trans hstep this
    · exact hstep

theorem trimDoLoop_numLogical (bound : Int) (x : PartInfo) (r pre : List PartInfo) (i : Int)
    (hx : x.type = LOGICAL) :
    numLogicalLoop (trimDoLoop bound pre i (x :: r)) < numLogicalLoop (pre ++ x :: r) := by
  have hcount : ∀ t : PartType, t ≠ LOGICAL →
      numLogicalLoop (pre ++ { x with type := t } :: r) + 1 = numLogicalLoop (pre ++ x :: r) := by
    intro t ht
    simp [numLogicalLoop_append, numLogicalLoop, hx, ht]
    omega
  have ht : (if numPrimaryLoop (pre ++ x :: r) < 3 then PRIMARY else WILL_NOT_CONVERT) ≠
      LOGICAL := by split <;> simp
  have h1 := hcount _ ht
  rw [trimDoLoop]
  split
  · have h2 := numLogicalLoop_of_retyped (trimDoLoop_retyped bound r
      (pre ++ [{ x with type := if numPrimaryLoop (pre ++ x :: r) < 3 then PRIMARY
          else WILL_NOT_CONVERT }]) (i + 1))
    rw [List.append_assoc, List.singleton_append] at h2
    omega
  · omega

theorem trimSeekLoop_append (shortestIndex : Int) (l pre : List PartInfo) (i : Int) :
    (trimSeekLoop shortestIndex pre i l).1 ++ (trimSeekLoop shortestIndex pre i l).2.2 =
      pre ++ l := by
  induction l generalizing pre i with
  | nil => simp [trimSeekLoop]
  | cons x r ih =>
    cases r with
    | nil => simp [trimSeekLoop]
    | cons y t =>
      rw [trimSeekLoop]
      split
      · rw [ih (pre ++ [x]) (i + 1)]; simp
      · rfl

theorem trimSmallestExtended_retyped (s : PartNotes) :
    List.Forall₂ Retyped s.notes s.TrimSmallestExtended.notes ∧
      s.TrimSmallestExtended.origTableSize = s.origTableSize := by
  unfold PartNotes.TrimSmallestExtended
  split
  · refine ⟨?_, rfl⟩
    simp only
    have h := trimDoLoop_retyped
      (wrapInt ((shortestLoop (extendedsLoop s s.GetNumExtended 0) (wrapInt (s.origTableSize + 1), -1)).1 +
        (shortestLoop (extendedsLoop s s.GetNumExtended 0) (wrapInt (s.origTableSize + 1), -1)).2))
      (trimSeekLoop (shortestLoop (extendedsLoop s s.GetNumExtended 0)
        (wrapInt (s.origTableSize + 1), -1)).2 [] 0 s.notes).2.2
      (trimSeekLoop (shortestLoop (extendedsLoop s s.GetNumExtended 0)
        (wrapInt (s.origTableSize + 1), -1)).2 [] 0 s.notes).1
      (trimSeekLoop (shortestLoop (extendedsLoop s s.GetNumExtended 0)
        (wrapInt (s.origTableSize + 1), -1)).2 [] 0 s.notes).2.1
    rw [trimSeekLoop_append] at h
    simpa using h
  · exact ⟨forall2_retyped_refl _, rfl⟩

theorem wrapInt_of_range (x : Int) (h1 : -2147483648 ≤ x) (h2 : x < 2147483648) :
    wrapInt x = x := by
  unfold wrapInt
  omega

theorem shortestLoop_none (ext : List ExtendedInfo) (acc : Int × Int)
    (h : ∀ e ∈ ext, ¬ e.numLogicals < acc.1) : shortestLoop ext acc = acc := by
  induction ext with
  | nil => rfl
  | cons e r ih =>
    rw [shortestLoop, if_neg (h e (List.mem_cons_self _ _))]
    exact ih (fun e2 he2 => h e2 (List.mem_cons_of_mem _ he2))

theorem trimSeekLoop_stay (shortestIndex : Int) (pre : List PartInfo) (i : Int)
    (l : List PartInfo) (h : shortestIndex ≤ i) :
    trimSeekLoop shortestIndex pre i l = (pre, i + 1, l) := by
  match l with
  | [] => simp [trimSeekLoop]
  | [x] => simp [trimSeekLoop]
  | x :: y :: r =>
    rw [trimSeekLoop, if_neg (by omega)]

theorem trimDoLoop_all (bound : Int) (rest pre : List PartInfo) (i : Int)
    (h : i + (rest.length : Int) ≤ bound + 1) :
    numLogicalLoop (trimDoLoop bound pre i rest) = numLogicalLoop pre := by
  induction rest generalizing pre i with
  | nil => simp [trimDoLoop]
  | cons x r ih =>
    have ht : (if numPrimaryLoop (pre ++ x :: r) < 3 then PRIMARY else WILL_NOT_CONVERT) ≠
        LOGICAL := by split <;> simp
    simp only [List.length_cons] at h
    rw [trimDoLoop]
    split
    · rw [ih _ (i + 1) (by push_cast at h ⊢; omega)]
      simp [numLogicalLoop_append, numLogicalLoop, ht]
    · rename_i hc
      have hr : r = [] := by
        by_contra hne
        apply hc
        have : 0 < r.length := List.length_pos.mpr hne
        exact ⟨by push_cast at h; omega, hne⟩
      subst hr
      simp [numLogicalLoop_append, numLogicalLoop, ht]

theorem trimSmallestExtended_numLogical_max (s : PartNotes)
    (hsize : (s.notes.length : Int) ≤ s.origTableSize) (hmax : s.origTableSize = 2147483647)
    (h1 : 1 ≤ s.GetNumExtended) :
    s.TrimSmallestExtended.GetNumLogical < s.GetNumLogical := by
  have hne : s.notes ≠ [] := by
    intro h
    simp [PartNotes.GetNumExtended, h, numExtendedLoop] at h1
  have hpos : 0 < s.notes.length := List.length_pos.mpr hne
  have hgood := extendedsLoop_good s s.GetNumExtended 0 hpos (by
    simp [PartNotes.GetNumExtended])
  have hw1 : wrapInt (s.origTableSize + 1) = -2147483648 := by
    rw [hmax]; decide
  have hshort : shortestLoop (extendedsLoop s s.GetNumExtended 0) (-2147483648, -1) =
      (-2147483648, -1) := by
    apply shortestLoop_none
    intro e he
    obtain ⟨st, len, _, hl, _, _⟩ := hgood e (by simpa using he)
    simp only [hl]
    omega
  have hw2 : wrapInt ((-2147483648 : Int) + -1) = 2147483647 := by decide
  have hnum := numExtendedLoop_le_numLogical false s.notes
  unfold PartNotes.TrimSmallestExtended PartNotes.GetNumLogical
  rw [if_pos hne]
  simp only [hw1, hshort, hw2, trimSeekLoop_stay (-1) [] 0 s.notes (by omega)]
  rw [trimDoLoop_all 2147483647 s.notes [] (0 + 1) (by omega)]
  simp only [PartNotes.GetNumExtended] at h1
  simp only [numLogicalLoop]
  omega

theorem trimSmallestExtended_numLogical_of_lt (s : PartNotes)
    (hsize : (s.notes.length : Int) ≤ s.origTableSize) (hmax : s.origTableSize < 2147483647)
    (h1 : 1 ≤ s.GetNumExtended) :
    s.TrimSmallestExtended.GetNumLogical < s.GetNumLogical := by
  have hne : s.notes ≠ [] := by
    intro h
    simp [PartNotes.GetNumExtended, h, numExtendedLoop] at h1
  have hpos : 0 < s.notes.length := List.length_pos.mpr hne
  have hw1 : wrapInt (s.origTableSize + 1) = s.origTableSize + 1 :=
    wrapInt_of_range _ (by omega) (by omega)
  have hgood := extendedsLoop_good s s.GetNumExtended 0 hpos (by
    simp [PartNotes.GetNumExtended])
  have hlen := extendedsLoop_length s s.GetNumExtended ((0 : Nat) : Int)
  obtain ⟨e0, he0⟩ : ∃ e0, e0 ∈ extendedsLoop s s.GetNumExtended ((0 : Nat) : Int) := by
    cases hext : extendedsLoop s s.GetNumExtended ((0 : Nat) : Int) with
    | nil => rw [hext] at hlen; simp at hlen; omega
    | cons e r => exact ⟨e, List.mem_cons_self _ _⟩
  obtain ⟨st0, len0, _, hl0, hlt0, _⟩ := hgood e0 he0
  obtain ⟨e, he, hshort⟩ := shortestLoop_found
    (extendedsLoop s s.GetNumExtended ((0 : Nat) : Int)) (s.origTableSize + 1, -1)
    ⟨e0, he0, by simp only [hl0]; omega⟩
  obtain ⟨st, len, hst, hl, hlt, x, r, hdrop, hx⟩ := hgood e he
  have hw2 : wrapInt (e.numLogicals + (st : Int)) = e.numLogicals + (st : Int) :=
    wrapInt_of_range _ (by rw [hl]; omega) (by rw [hl]; omega)
  have hseek := trimSeekLoop_reach st [] 0 s.notes (by omega)
  simp only [Nat.cast_zero] at hshort
  unfold PartNotes.TrimSmallestExtended PartNotes.GetNumLogical
  rw [if_pos hne]
  simp only [hw1, hshort, hst, hw2]
  rw [Int.zero_add] at hseek
  rw [hseek]
  simp only [List.nil_append, hdrop]
  have := trimDoLoop_numLogical (e.numLogicals + (st : Int)) x r (s.notes.take st) (st + 1) hx
  rw [← hdrop, List.take_append_drop] at this
  rw [← hdrop]
  exact this

theorem trimSmallestExtended_numLogical (s : PartNotes)
    (hsize : (s.notes.length : Int) ≤ s.origTableSize) (hmax : s.origTableSize ≤ 2147483647)
    (h1 : 1 ≤ s.GetNumExtended) :
    s.TrimSmallestExtended.GetNumLogical < s.GetNumLogical := by
  by_cases h : s.origTableSize = 2147483647
  · exact trimSmallestExtended_numLogical_max s hsize h h1
  · exact trimSmallestExtended_numLogical_of_lt s hsize (by omega) h1

theorem trimLoop_terminates (fuel : Nat) (s : PartNotes)
    (hsize : (s.notes.length : Int) ≤ s.origTableSize) (hmax : s.origTableSize ≤ 2147483647)
    (hfuel : s.GetNumLogical ≤ fuel) :
    ∃ t, trimLoop fuel s = some t ∧ t.GetNumExtended ≤ 1 ∧
      List.Forall₂ Retyped s.notes t.notes ∧ t.origTableSize = s.origTableSize := by
  induction fuel generalizing s with
  | zero =>
    have h0 : s.GetNumExtended ≤ 1 := by
      have := numExtendedLoop_le_numLogical false s.notes
      simp only [PartNotes.GetNumExtended, PartNotes.GetNumLogical] at hfuel ⊢
      omega
    exact ⟨s, by simp [trimLoop]; omega, h0, forall2_retyped_refl _, rfl⟩
  | succ k ih =>
    by_cases h : s.GetNumExtended > 1
    · obtain ⟨hret, hots⟩ := trimSmallestExtended_retyped s
      have hdec := trimSmallestExtended_numLogical s hsize hmax (by omega)
      have hlen := hret.length_eq
      obtain ⟨t, ht1, ht2, ht3, ht4⟩ := ih s.TrimSmallestExtended
        (by rw [← hlen, hots]; exact hsize) (by rw [hots]; exact hmax) (by omega)
      exact ⟨t, by simp [trimLoop, h, ht1], ht2, forall2_retyped_trans hret ht3,
        by rw [ht4, hots]⟩
    · exact ⟨s, by simp [trimLoop, h], by omega, forall2_retyped_refl _, rfl⟩

/-! ### The loop that cuts primaries -/

theorem lastPrimaryLoop_none (l : List PartInfo) (pos : Nat) (acc : Option Nat)
    (h : lastPrimaryLoop pos acc l = none) : numPrimaryLoop l = 0 := by
  induction l generalizing pos acc with
  | nil => simp [numPrimaryLoop]
  | cons x r ih =>
    rw [lastPrimaryLoop] at h
    by_cases hx : x.type = PRIMARY
    · rw [if_pos hx] at h
      have hsome : ∀ (m : List PartInfo) (p q : Nat), lastPrimaryLoop p (some q) m ≠ none := by
        intro m
        induction m with
        | nil => intro p q; simp [lastPrimaryLoop]
        | cons y t iht =>
          intro p q
          rw [lastPrimaryLoop]
          split
          · exact iht _ _
          · exact iht _ _
      exact absurd h (hsome r _ _)
    · rw [if_neg hx] at h
      simp [numPrimaryLoop, hx, ih _ _ h]

theorem lastPrimaryLoop_some (l : List PartInfo) (pos : Nat) (acc : Option Nat) (p : Nat)
    (h : lastPrimaryLoop pos acc l = some p) :
    acc = some p ∨ (pos ≤ p ∧ ∃ x, l[p - pos]? = some x ∧ x.type = PRIMARY) := by
  induction l generalizing pos acc with
  | nil => left; simpa [lastPrimaryLoop] using h
  | cons x r ih =>
    rw [lastPrimaryLoop] at h
    rcases ih _ _ h with h1 | ⟨h1, y, h2, h3⟩
    · by_cases hx : x.type = PRIMARY
      · rw [if_pos hx] at h1
        simp only [Option.some.injEq] at h1
        subst h1
        right
        exact ⟨le_refl _, x, by simp, hx⟩
      · rw [if_neg hx] at h1
        exact Or.inl h1
    · right
      refine ⟨by omega, y, ?_, h3⟩
      have : p - pos = (p - (pos + 1)) + 1 := by omega
      rw [this, List.getElem?_cons_succ]
      exact h2

theorem writeType_retyped (t : PartType) (ht : t ≠ LOGICAL) (l : List PartInfo) (pos : Nat) :
    List.Forall₂ Retyped l (writeType t pos l) := by
  induction l generalizing pos with
  | nil => simp [writeType]
  | cons x r ih =>
    cases pos with
    | zero => exact List.Forall₂.cons (retyped_setType x t ht) (forall2_retyped_refl r)
    | succ k => exact List.Forall₂.cons (retyped_refl x) (ih k)

theorem writeType_exclude_counts (l : List PartInfo) (pos : Nat) (x : PartInfo)
    (hx : l[pos]? = some x) (hp : x.type = PRIMARY) :
    numPrimaryLoop (writeType WILL_NOT_CONVERT pos l) + 1 = numPrimaryLoop l ∧
      ∀ b, numExtendedLoop b (writeType WILL_NOT_CONVERT pos l) ≤ numExtendedLoop b l := by
  induction l generalizing pos with
  | nil => simp at hx
  | cons y r ih =>
    cases pos with
    | zero =>
      simp only [List.getElem?_cons_zero, Option.some.injEq] at hx
      subst hx
      refine ⟨by simp [writeType, numPrimaryLoop, hp, Nat.add_comm], ?_⟩
      intro b
      have := numExtendedLoop_true_le r
      cases b <;> simp [writeType, numExtendedLoop, hp]
      omega
    | succ k =>
      rw [List.getElem?_cons_succ] at hx
      obtain ⟨h1, h2⟩ := ih k hx
      refine ⟨by simp only [writeType, numPrimaryLoop]; omega, ?_⟩
      intro b
      cases hy : y.type
      · simpa [writeType, numExtendedLoop, hy] using h2 false
      · simpa [writeType, numExtendedLoop, hy] using h2 true
      · simpa [writeType, numExtendedLoop, hy] using h2 b

theorem cutPrimariesLoop_legal (fuel : Nat) (s : PartNotes) (lastPrimary : Option Nat)
    (hlp : lastPrimary ≠ none) (hfuel : s.GetNumPrimary < fuel) (he : s.GetNumExtended ≤ 1)
    (hlog : LogicalsHaveSpace s.notes) :
    ∃ t, cutPrimariesLoop fuel lastPrimary s = some t ∧ t.IsLegal = true ∧
      List.Forall₂ Retyped s.notes t.notes ∧ t.origTableSize = s.origTableSize := by
  induction fuel generalizing s lastPrimary with
  | zero => omega
  | succ k ih =>
    by_cases hleg : s.IsLegal = true
    · exact ⟨s, by simp [cutPrimariesLoop, hleg], hleg, forall2_retyped_refl _, rfl⟩
    · have hcond : (!s.IsLegal) = true ∧ lastPrimary ≠ none := ⟨by simpa using hleg, hlp⟩
      rw [cutPrimariesLoop, if_pos hcond]
      cases hscan : lastPrimaryLoop 0 none s.notes with
      | none =>
        exfalso
        apply hleg
        rw [isLegal_iff]
        have := lastPrimaryLoop_none _ _ _ hscan
        simp only [PartNotes.GetNumPrimary, PartNotes.GetNumExtended] at he ⊢
        exact ⟨by omega, he, hlog⟩
      | some pos =>
        rcases lastPrimaryLoop_some _ _ _ _ hscan with h | ⟨_, x, hx, hp⟩
        · cases h
        · simp only [Nat.sub_zero] at hx
          obtain ⟨h1, h2⟩ := writeType_exclude_counts s.notes pos x hx hp
          have hret := writeType_retyped WILL_NOT_CONVERT (by simp) s.notes pos
          obtain ⟨t, ht1, ht2, ht3, ht4⟩ := ih
            ({ s with notes := writeType WILL_NOT_CONVERT pos s.notes } : PartNotes) (some pos)
            (by simp)
            (by simp only [PartNotes.GetNumPrimary] at hfuel ⊢; omega)
            (by
              have := h2 false
              simp only [PartNotes.GetNumExtended] at he ⊢; omega)
            (logicalsHaveSpace_of_retyped hret hlog)
          exact ⟨t, ht1, ht2, forall2_retyped_trans hret ht3, ht4⟩

/-! ### The two promotion blocks -/

theorem allPrimaryLoop_spec (l : List PartInfo) :
    List.Forall₂ Retyped l (allPrimaryLoop l) ∧
      numPrimaryLoop (allPrimaryLoop l) = numPrimaryLoop l + numLogicalLoop l ∧
      ∀ b, numExtendedLoop b (allPrimaryLoop l) = 0 := by
  induction l with
  | nil => simp [allPrimaryLoop, numPrimaryLoop, numLogicalLoop, numExtendedLoop]
  | cons x r ih =>
    obtain ⟨h1, h2, h3⟩ := ih
    cases hx : x.type
    · refine ⟨?_, ?_, ?_⟩
      · simpa [allPrimaryLoop, hx] using List.Forall₂.cons (retyped_refl x) h1
      · simp [allPrimaryLoop, hx, numPrimaryLoop, numLogicalLoop, h2]; omega
      · intro b; simp [allPrimaryLoop, hx, numExtendedLoop, h3]
    · refine ⟨?_, ?_, ?_⟩
      · simpa [allPrimaryLoop, hx] using
          List.Forall₂.cons (retyped_setType x PRIMARY (by simp)) h1
      · simp [allPrimaryLoop, hx, numPrimaryLoop, numLogicalLoop, h2]; omega
      · intro b; simp [allPrimaryLoop, hx, numExtendedLoop, h3]
    · refine ⟨?_, ?_, ?_⟩
      · simpa [allPrimaryLoop, hx] using List.Forall₂.cons (retyped_refl x) h1
      · simp [allPrimaryLoop, hx, numPrimaryLoop, numLogicalLoop, h2]
      · intro b; simp [allPrimaryLoop, hx, numExtendedLoop, h3]

theorem allPrimaryIfFew_legal (s : PartNotes) (h : s.IsLegal = true) :
    s.allPrimaryIfFew.IsLegal = true ∧ List.Forall₂ Retyped s.notes s.allPrimaryIfFew.notes := by
  unfold PartNotes.allPrimaryIfFew
  split
  · rename_i hfew
    obtain ⟨h1, h2, h3⟩ := allPrimaryLoop_spec s.notes
    refine ⟨?_, h1⟩
    rw [isLegal_iff] at h ⊢
    refine ⟨?_, ?_, logicalsHaveSpace_of_retyped h1 h.2.2⟩
    · simp only [PartNotes.GetNumPrimary, PartNotes.GetNumExtended, PartNotes.GetNumLogical,
        h2, h3] at hfew ⊢
      omega
    · simp only [PartNotes.GetNumExtended, h3]; omega
  · exact ⟨h, forall2_retyped_refl _⟩

theorem firstPartLoop_keeps (l : List PartInfo) (pos : Nat) (firstPart : Nat × PartInfo)
    (h : ∀ x ∈ l, firstPart.2.firstLBA ≤ x.firstLBA) :
    firstPartLoop pos firstPart l = firstPart := by
  induction l generalizing pos with
  | nil => rfl
  | cons x r ih =>
    have hx := h x (List.mem_cons_self _ _)
    have hno : ¬ (x.firstLBA < firstPart.2.firstLBA ∧ x.type ≠ WILL_NOT_CONVERT) := by
      rintro ⟨h1, _⟩; omega
    rw [firstPartLoop, if_neg hno]
    exact ih _ (fun y hy => h y (List.mem_cons_of_mem _ hy))

theorem firstToPrimary_legal (s : PartNotes) (h : s.IsLegal = true)
    (hfirst : FirstStartsFirst s.notes) : s.firstToPrimary.IsLegal = true := by
  unfold PartNotes.firstToPrimary
  split
  · rename_i hslack
    cases hn : s.notes with
    | nil => simpa using h
    | cons head r =>
      rw [hn] at hfirst
      have hkeep : firstPartLoop 0 (0, head) (head :: r) = (0, head) := by
        apply firstPartLoop_keeps
        intro x hx
        rcases List.mem_cons.mp hx with h1 | h1
        · rw [h1]
        · exact hfirst x h1
      simp only [hkeep]
      split
      · rw [isLegal_iff] at h ⊢
        obtain ⟨h1, h2, h3⟩ := h
        have hret : List.Forall₂ Retyped (head :: r) (writeType PRIMARY 0 (head :: r)) :=
          writeType_retyped PRIMARY (by simp) (head :: r) 0
        have hmono := numExtendedLoop_true_le r
        simp only [PartNotes.GetNumPrimary, PartNotes.GetNumExtended, hn] at h1 h2 hslack ⊢
        rw [hn] at h3
        have hp : numPrimaryLoop (writeType PRIMARY 0 (head :: r)) ≤
            numPrimaryLoop (head :: r) + 1 := by
          simp only [writeType, numPrimaryLoop]
          split <;> split <;> omega
        have he : numExtendedLoop false (writeType PRIMARY 0 (head :: r)) ≤
            numExtendedLoop false (head :: r) := by
          cases hh : head.type <;> simp [writeType, numExtendedLoop, hh]
          omega
        exact ⟨by omega, by omega, logicalsHaveSpace_of_retyped hret h3⟩
      · exact h
  · exact h

/-! ### RemoveDuplicates keeps what the later steps rely on -/

theorem removeDuplicatesLoop_keeps (l : List PartInfo) (hne : l ≠ [])
    (hlog : LogicalsHaveSpace l) (hfirst : FirstStartsFirst l) :
    removeDuplicatesLoop l ≠ [] ∧ LogicalsHaveSpace (removeDuplicatesLoop l) ∧
      FirstStartsFirst (removeDuplicatesLoop l) ∧
      (removeDuplicatesLoop l).length ≤ l.length := by
  have hsub : List.Sublist (removeDuplicatesLoop l) l := removeDuplicatesLoop_sublist l
  refine ⟨?_, fun x hx => hlog x (hsub.subset hx), ?_, hsub.length_le⟩
  · cases l with
    | nil => exact absurd rfl hne
    | cons h r => rw [removeDuplicatesLoop]; simp
  · cases l with
    | nil => exact absurd rfl hne
    | cons h r =>
      rw [removeDuplicatesLoop]
      intro x hx
      have hx2 := (removeDuplicatesLoop_sublist (removeMatching h r r)).subset hx
      exact hfirst x ((removeMatching_spec h r).1.subset hx2)

/-! ### MakeItLegal: when the state left is legal -/

theorem cutToLegal_legal (fuel : Nat) (s : PartNotes)
    (hsize : (s.notes.length : Int) ≤ s.origTableSize) (hmax : s.origTableSize ≤ 2147483647)
    (hfuel : s.notes.length < fuel) (hlog : LogicalsHaveSpace s.notes) :
    ∃ t, s.cutToLegal fuel = some t ∧ t.IsLegal = true ∧
      List.Forall₂ Retyped s.notes t.notes := by
  unfold PartNotes.cutToLegal
  by_cases hleg : s.IsLegal = true
  · exact ⟨s, by simp [hleg], hleg, forall2_retyped_refl _⟩
  · have hcond : (!s.IsLegal) = true := by simpa using hleg
    rw [if_pos hcond]
    have hnl := numLogicalLoop_le_length s.notes
    obtain ⟨t1, h1, h2, h3, _⟩ := trimLoop_terminates fuel s hsize hmax
      (by simp only [PartNotes.GetNumLogical]; omega)
    have hnp := numPrimaryLoop_le_length t1.notes
    have hlen := h3.length_eq
    obtain ⟨t2, k1, k2, k3, _⟩ := cutPrimariesLoop_legal fuel t1 (some 0) (by simp)
      (by simp only [PartNotes.GetNumPrimary]; omega) h2
      (logicalsHaveSpace_of_retyped h3 hlog)
    rw [h1]
    exact ⟨t2, k1, k2, forall2_retyped_trans h3 k3⟩

/-- C1, as stated, fails on two tables of five `LOGICAL` notes with distinct
extents. On `tableFiveLogicalOneTight` the third note has no free sector before
it: no step of `MakeItLegal` changes it, and `MakeItLegal` returns 0 on an
illegal state (or does not return, without a pass allowed), never 1. On
`tableFiveLogicalSwapped`, legal on entry, the note that starts first is the
second one: the last block turns it `PRIMARY`, which splits the logicals in two
groups, and `MakeItLegal` returns 0 on an illegal state. -/
theorem C1_makeItLegal_can_fail :
    (tableFiveLogicalOneTight.notes ≠ [] ∧
      (∀ fuel : Nat, tableFiveLogicalOneTight.MakeItLegal (fuel + 1) =
        some (false, tableFiveLogicalOneTightAfter)) ∧
      tableFiveLogicalOneTight.MakeItLegal 0 = none ∧
      tableFiveLogicalOneTightAfter.IsLegal = false) ∧
    (tableFiveLogicalSwapped.notes ≠ [] ∧ tableFiveLogicalSwapped.IsLegal = true ∧
      (∀ fuel : Nat, tableFiveLogicalSwapped.MakeItLegal fuel =
        some (false, tableFiveLogicalSwappedAfter)) ∧
      tableFiveLogicalSwappedAfter.IsLegal = false) := by
  refine ⟨⟨by decide, ?_, ?_, by decide⟩, by decide, by decide, ?_, by decide⟩
  · intro fuel
    rw [makeItLegal_unfold _ _ (by decide)]
    have h2 : tableFiveLogicalOneTight.cutToLegal (fuel + 1) = some tableFiveLogicalOneTight := by
      have hleg : tableFiveLogicalOneTight.IsLegal = false := by decide
      have he : ¬ tableFiveLogicalOneTight.GetNumExtended > 1 := by decide
      have hscan : lastPrimaryLoop 0 none tableFiveLogicalOneTight.notes = none := by decide
      have hcut : ∀ k : Nat, cutPrimariesLoop k none tableFiveLogicalOneTight =
          some tableFiveLogicalOneTight := by
        intro k; cases k <;> simp [cutPrimariesLoop]
      simp [PartNotes.cutToLegal, hleg, trimLoop, he, cutPrimariesLoop, hscan, hcut]
    rw [h2]
    decide
  · rw [makeItLegal_unfold _ _ (by decide)]; decide
  · intro fuel
    rw [makeItLegal_unfold _ _ (by decide)]
    have h2 : tableFiveLogicalSwapped.cutToLegal fuel = some tableFiveLogicalSwapped := by
      have hleg : tableFiveLogicalSwapped.IsLegal = true := by decide
      simp [PartNotes.cutToLegal, hleg]
    rw [h2]
    decide

/-- C1, amended: on a non-empty list in which every `LOGICAL` note has a free
sector before it, no note starts before the first one, and the original table
size, an `int` (at most `2^31 - 1`), is at least the number of notes,
`MakeItLegal` returns (any number of passes above the number of notes
suffices), it returns 1, and the state it leaves is legal. The list may hold
duplicates, and the original table size may be the largest `int`. -/
theorem C1_makeItLegal_legal (fuel : Nat) (s : PartNotes) (hne : s.notes ≠ [])
    (hlog : LogicalsHaveSpace s.notes) (hfirst : FirstStartsFirst s.notes)
    (hsize : (s.notes.length : Int) ≤ s.origTableSize)
    (hmax : s.origTableSize ≤ 2147483647) (hfuel : s.notes.length < fuel) :
    ∃ t, s.MakeItLegal fuel = some (true, t) ∧ t.IsLegal = true := by
  obtain ⟨k1, k2, k3, k4⟩ := removeDuplicatesLoop_keeps s.notes hne hlog hfirst
  obtain ⟨t, h1, h2, h3⟩ := cutToLegal_legal fuel s.RemoveDuplicates
    (by simp only [PartNotes.RemoveDuplicates]; omega)
    (by simp only [PartNotes.RemoveDuplicates]; exact hmax)
    (by simp only [PartNotes.RemoveDuplicates]; omega) k2
  obtain ⟨h4, h5⟩ := allPrimaryIfFew_legal t h2
  have h6 := firstToPrimary_legal t.allPrimaryIfFew h4
    (firstStartsFirst_of_retyped (forall2_retyped_trans h3 h5) k3)
  refine ⟨t.allPrimaryIfFew.firstToPrimary, ?_, h6⟩
  unfold PartNotes.MakeItLegal
  rw [if_neg hne, h1]
  simp [h6]

/-- C1, amended, on `tableLLLPLL`: the hypotheses hold there and `MakeItLegal`
returns 1 with a legal state. -/
theorem C1_makeItLegal_legal_witness :
    tableLLLPLL.notes ≠ [] ∧ LogicalsHaveSpace tableLLLPLL.notes ∧
      FirstStartsFirst tableLLLPLL.notes ∧
      (tableLLLPLL.notes.length : Int) ≤ tableLLLPLL.origTableSize ∧
      tableLLLPLL.origTableSize ≤ 2147483647 ∧
      ∃ t, tableLLLPLL.MakeItLegal 7 = some (true, t) ∧ t.IsLegal = true :=
  ⟨by decide,
   by simp [LogicalsHaveSpace, tableLLLPLL, sampleTable, sampleNote],
   by simp [FirstStartsFirst, tableLLLPLL, sampleTable, sampleNote],
   by decide, by decide,
   C1_makeItLegal_legal 7 tableLLLPLL (by decide)
     (by simp [LogicalsHaveSpace, tableLLLPLL, sampleTable, sampleNote])
     (by simp [FirstStartsFirst, tableLLLPLL, sampleTable, sampleNote])
     (by decide) (by decide) (by decide)⟩

/-! ### Clamped positions -/

theorem walkModify_getElem? (f : PartInfo → PartInfo) (partNum : Int) (l : List PartInfo)
    (count : Int) (j : Nat) (hl : l ≠ []) :
    (walkModify f partNum count l)[j]? =
      if j = min (partNum - count).toNat (l.length - 1) then l[j]?.map f else l[j]? := by
  induction l generalizing count j with
  | nil => exact absurd rfl hl
  | cons x r ih =>
    cases r with
    | nil =>
      cases j with
      | zero => simp [walkModify]
      | succ k => simp [walkModify]
    | cons y t =>
      by_cases hc : count < partNum
      · have hk : min (partNum - count).toNat ((x :: y :: t).length - 1) =
            min (partNum - (count + 1)).toNat ((y :: t).length - 1) + 1 := by
          simp only [List.length_cons]; omega
        rw [walkModify, if_pos hc, hk]
        cases j with
        | zero => simp
        | succ k =>
          rw [List.getElem?_cons_succ, ih (count + 1) k (by simp)]
          simp
      · have hk : min (partNum - count).toNat ((x :: y :: t).length - 1) = 0 := by
          simp only [List.length_cons]; omega
        rw [walkModify, if_neg hc, hk]
        cases j with
        | zero => simp
        | succ k => simp

theorem walkGet_getElem? (partNum : Int) (l : List PartInfo) (count : Int) (hl : l ≠ []) :
    walkGet partNum count l = l[min (partNum - count).toNat (l.length - 1)]? := by
  induction l generalizing count with
  | nil => exact absurd rfl hl
  | cons x r ih =>
    cases r with
    | nil => simp [walkGet]
    | cons y t =>
      by_cases hc : count < partNum
      · have hk : min (partNum - count).toNat ((x :: y :: t).length - 1) =
            min (partNum - (count + 1)).toNat ((y :: t).length - 1) + 1 := by
          simp only [List.length_cons]; omega
        rw [walkGet, if_pos hc, hk, ih (count + 1) (by simp)]
        simp
      · have hk : min (partNum - count).toNat ((x :: y :: t).length - 1) = 0 := by
          simp only [List.length_cons]; omega
        rw [walkGet, if_neg hc, hk]
        simp

theorem clampedPosition_eq (n : Nat) (i : Int) :
    clampedPosition n i = min (i - 0).toNat (n - 1) := by
  unfold clampedPosition
  omega

theorem clampedPosition_lt (n : Nat) (i : Int) (hn : 0 < n) : clampedPosition n i < n := by
  unfold clampedPosition
  omega

/-- C14: on a non-empty list of `n` notes `SetType(i, r)` writes `r` into the
`type` of the note at position `min(max(i, 0), n - 1)` and changes nothing
else, and `GetType(i)` reads the `type` of that same note, so that it returns
`r` after `SetType(i, r)`; on the empty list `SetType` changes nothing and
`GetType` returns `WILL_NOT_CONVERT`. -/
theorem C14_clamped_positional_access (s : PartNotes) (i : Int) (r : PartType)
    (hne : s.notes ≠ []) :
    (∀ j : Nat, (s.SetType i r).notes[j]? =
      if j = clampedPosition s.notes.length i then
        s.notes[j]?.map (fun n => { n with type := r })
      else s.notes[j]?) ∧
    (s.SetType i r).notes.length = s.notes.length ∧
    (s.SetType i r).origTableSize = s.origTableSize ∧
    (s.SetType i r).currentNote = s.currentNote ∧
    (s.SetType i r).currentIndex = s.currentIndex ∧
    (s.notes[clampedPosition s.notes.length i]?).map (fun n => n.type) = some (s.GetType i) ∧
    (s.SetType i r).GetType i = r ∧
    (({ s with notes := [] } : PartNotes).SetType i r = { s with notes := [] } ∧
      ({ s with notes := [] } : PartNotes).GetType i = WILL_NOT_CONVERT) := by
  have hget : ∀ j : Nat, (s.SetType i r).notes[j]? =
      if j = clampedPosition s.notes.length i then
        s.notes[j]?.map (fun n => { n with type := r })
      else s.notes[j]? := by
    intro j
    rw [clampedPosition_eq]
    exact walkModify_getElem? _ i s.notes 0 j hne
  have hlen : (s.SetType i r).notes.length = s.notes.length := by
    apply Nat.le_antisymm
    · by_contra hlt
      have h1 := hget s.notes.length
      have hpos := clampedPosition_lt s.notes.length i (List.length_pos.mpr hne)
      rw [if_neg (by omega)] at h1
      have h2 : s.notes[s.notes.length]? = none := List.getElem?_eq_none (le_refl _)
      rw [h2, List.getElem?_eq_none_iff] at h1
      omega
    · by_contra hlt
      have h1 := hget (s.SetType i r).notes.length
      have h2 : (s.SetType i r).notes[(s.SetType i r).notes.length]? = none :=
        List.getElem?_eq_none (le_refl _)
      rw [h2] at h1
      split at h1
      · have := Eq.symm h1
        rw [Option.map_eq_none', List.getElem?_eq_none_iff] at this
        omega
      · have := Eq.symm h1
        rw [List.getElem?_eq_none_iff] at this
        omega
  have hpos := clampedPosition_lt s.notes.length i (List.length_pos.mpr hne)
  obtain ⟨x, hx⟩ : ∃ x, s.notes[clampedPosition s.notes.length i]? = some x :=
    ⟨s.notes[clampedPosition s.notes.length i], List.getElem?_eq_getElem hpos⟩
  have hne2 : (s.SetType i r).notes ≠ [] := by
    intro h
    rw [h] at hlen
    simp at hlen
    exact hne (List.length_eq_zero.mp hlen.symm)
  refine ⟨hget, hlen, rfl, rfl, rfl, ?_, ?_, ?_, ?_⟩
  · unfold PartNotes.GetType
    rw [walkGet_getElem? i s.notes 0 hne, ← clampedPosition_eq, hx]
    rfl
  · unfold PartNotes.GetType
    rw [walkGet_getElem? i _ 0 hne2, ← clampedPosition_eq, hlen, hget, if_pos rfl, hx]
    rfl
  · simp [PartNotes.SetType, walkModify]
  · simp [PartNotes.GetType, walkGet]

/-- C14 on `tablePP` with an index beyond the list: `SetType(7, LOGICAL)` and
`GetType(7)` act on the last note, at position 1. -/
theorem C14_clamped_positional_access_witness :
    tablePP.notes ≠ [] ∧ clampedPosition tablePP.notes.length 7 = 1 ∧
      (tablePP.SetType 7 LOGICAL).GetType 7 = LOGICAL :=
  ⟨by decide, by decide,
   (C14_clamped_positional_access tablePP 7 LOGICAL (by decide)).2.2.2.2.2.2.1⟩

/-! ### SetMbrHexType -/

theorem walkModify_mem (f : PartInfo → PartInfo) (partNum : Int) (l : List PartInfo)
    (count : Int) : ∀ y ∈ walkModify f partNum count l, y ∈ l ∨ ∃ x ∈ l, y = f x := by
  induction l generalizing count with
  | nil => intro y hy; simp [walkModify] at hy
  | cons x r ih =>
    cases r with
    | nil =>
      intro y hy
      simp only [walkModify, List.mem_singleton] at hy
      exact Or.inr ⟨x, by simp, hy⟩
    | cons z t =>
      intro y hy
      by_cases hc : count < partNum
      · rw [walkModify, if_pos hc, List.mem_cons] at hy
        rcases hy with h | h
        · exact Or.inl (by rw [h]; simp)
        · rcases ih (count + 1) y h with h1 | ⟨w, hw, h1⟩
          · exact Or.inl (List.mem_cons_of_mem _ h1)
          · exact Or.inr ⟨w, List.mem_cons_of_mem _ hw, h1⟩
      · rw [walkModify, if_neg hc, List.mem_cons] at hy
        rcases hy with h | h
        · exact Or.inr ⟨x, by simp, h⟩
        · exact Or.inl (List.mem_cons_of_mem _ h)

/-- C15: for a type code `0x05`, `0x0F` or `0x85`, `SetMbrHexType` leaves the
whole state as it is and prints its refusal; for any other code it prints
nothing and writes the code into `hexCode` of the note at the clamped position,
and nowhere else. So a list without a reserved code holds none after the call. -/
theorem C15_setMbrHexType_refuses_reserved (s : PartNotes) (i : Int) (code : Nat) :
    ((code = 0x05 ∨ code = 0x0f ∨ code = 0x85) → s.SetMbrHexType i code = (s, true)) ∧
    (¬ (code = 0x05 ∨ code = 0x0f ∨ code = 0x85) →
      (s.SetMbrHexType i code).2 = false ∧
      (∀ j : Nat, (s.SetMbrHexType i code).1.notes[j]? =
        if j = clampedPosition s.notes.length i then
          s.notes[j]?.map (fun n => { n with hexCode := code })
        else s.notes[j]?) ∧
      (s.SetMbrHexType i code).1.origTableSize = s.origTableSize ∧
      (s.SetMbrHexType i code).1.currentNote = s.currentNote ∧
      (s.SetMbrHexType i code).1.currentIndex = s.currentIndex) ∧
    ((∀ x ∈ s.notes, x.hexCode ≠ 0x05 ∧ x.hexCode ≠ 0x0f ∧ x.hexCode ≠ 0x85) →
      ∀ x ∈ (s.SetMbrHexType i code).1.notes,
        x.hexCode ≠ 0x05 ∧ x.hexCode ≠ 0x0f ∧ x.hexCode ≠ 0x85) := by
  refine ⟨?_, ?_, ?_⟩
  · intro h
    unfold PartNotes.SetMbrHexType
    rw [if_neg (by omega)]
  · intro h
    have hc : code ≠ 0x0f ∧ code ≠ 0x05 ∧ code ≠ 0x85 := by omega
    unfold PartNotes.SetMbrHexType
    rw [if_pos hc]
    refine ⟨rfl, ?_, rfl, rfl, rfl⟩
    intro j
    by_cases hne : s.notes = []
    · simp [hne, walkModify]
    · rw [clampedPosition_eq]
      exact walkModify_getElem? _ i s.notes 0 j hne
  · intro hold x hx
    unfold PartNotes.SetMbrHexType at hx
    by_cases hc : code ≠ 0x0f ∧ code ≠ 0x05 ∧ code ≠ 0x85
    · rw [if_pos hc] at hx
      rcases walkModify_mem _ i s.notes 0 x hx with h | ⟨w, _, h⟩
      · exact hold x h
      · rw [h]; exact ⟨hc.2.1, hc.1, hc.2.2⟩
    · rw [if_neg hc] at hx
      exact hold x hx

/-- C15 on `tablePP`: the code `0x05` is refused and the table is left as it
was; the code `0x07` is written into the second note. -/
theorem C15_setMbrHexType_refuses_reserved_witness :
    tablePP.SetMbrHexType 1 0x05 = (tablePP, true) ∧
      (tablePP.SetMbrHexType 1 0x07).1.notes.map (fun n => n.hexCode) = [0x83, 0x07] :=
  ⟨(C15_setMbrHexType_refuses_reserved tablePP 1 0x05).1 (Or.inl rfl), by decide⟩

/-! ### Rewind and GetNextInfo -/

theorem afterNextInfoCalls_rewind (s : PartNotes) (k : Nat) :
    afterNextInfoCalls k s.Rewind =
      { s with
        currentNote :=
          if k < s.notes.length then NotePointer.inList k else NotePointer.null,
        currentIndex := ((min k s.notes.length : Nat) : Int) } := by
  induction k with
  | zero =>
    simp only [afterNextInfoCalls, PartNotes.Rewind]
    by_cases h : s.notes = []
    · simp [h]
    · have : 0 < s.notes.length := List.length_pos.mpr h
      simp [h, this]
  | succ k ih =>
    rw [afterNextInfoCalls, ih]
    unfold PartNotes.GetNextInfo
    by_cases hk : k < s.notes.length
    · have hx : s.notes[k]? = some s.notes[k] := List.getElem?_eq_getElem hk
      simp only [hk, if_true, hx]
      have h1 : min k s.notes.length = k := by omega
      have h2 : min (k + 1) s.notes.length = k + 1 := by omega
      rw [h2]
      by_cases hk2 : k + 1 < s.notes.length
      · simp [hk2]; omega
      · simp [hk2]; omega
    · have hk2 : ¬ k + 1 < s.notes.length := by omega
      have h1 : min k s.notes.length = s.notes.length := by omega
      have h2 : min (k + 1) s.notes.length = s.notes.length := by omega
      simp only [hk, hk2, if_false, h1, h2]

/-- C16: after `Rewind`, the call of `GetNextInfo` that follows `k` earlier
calls returns `k` and a copy of the note at position `k` when `k` is below the
number of notes, and -1 without writing `*info` otherwise; the notes are the
same before and after every call. -/
theorem C16_iteration_complete_and_ordered (s : PartNotes) (k : Nat) :
    (k < s.notes.length →
      ∃ note, s.notes[k]? = some note ∧
        (afterNextInfoCalls k s.Rewind).GetNextInfo.1 = (k : Int) ∧
        (afterNextInfoCalls k s.Rewind).GetNextInfo.2.1 = some note) ∧
    (s.notes.length ≤ k →
      (afterNextInfoCalls k s.Rewind).GetNextInfo.1 = -1 ∧
        (afterNextInfoCalls k s.Rewind).GetNextInfo.2.1 = none) ∧
    (afterNextInfoCalls k s.Rewind).notes = s.notes ∧
    (afterNextInfoCalls k s.Rewind).GetNextInfo.2.2.notes = s.notes := by
  have hnext : (afterNextInfoCalls k s.Rewind).GetNextInfo.2.2 =
      afterNextInfoCalls (k + 1) s.Rewind := rfl
  refine ⟨?_, ?_, ?_, ?_⟩
  · intro hk
    have hx : s.notes[k]? = some s.notes[k] := List.getElem?_eq_getElem hk
    refine ⟨s.notes[k], hx, ?_, ?_⟩
    · rw [afterNextInfoCalls_rewind]
      unfold PartNotes.GetNextInfo
      simp only [hk, if_true, hx]
      omega
    · rw [afterNextInfoCalls_rewind]
      unfold PartNotes.GetNextInfo
      simp only [hk, if_true, hx]
  · intro hk
    have hk2 : ¬ k < s.notes.length := by omega
    rw [afterNextInfoCalls_rewind]
    unfold PartNotes.GetNextInfo
    simp [hk2]
  · rw [afterNextInfoCalls_rewind]
  · rw [hnext, afterNextInfoCalls_rewind]

/-- C16 on `tablePP`: after `Rewind` the first call returns 0 with the first
note, the second call 1 with the second note, the third call -1. -/
theorem C16_iteration_complete_and_ordered_witness :
    tablePP.Rewind.GetNextInfo.1 = 0 ∧
      tablePP.Rewind.GetNextInfo.2.1 = some (sampleNote PRIMARY true 0) ∧
      (afterNextInfoCalls 1 tablePP.Rewind).GetNextInfo.1 = 1 ∧
      (afterNextInfoCalls 1 tablePP.Rewind).GetNextInfo.2.1 = some (sampleNote PRIMARY false 10) ∧
      (afterNextInfoCalls 2 tablePP.Rewind).GetNextInfo.1 = -1 :=
  ⟨by decide, by decide, by decide, by decide,
   ((C16_iteration_complete_and_ordered tablePP 2).2.1 (by decide)).1⟩

/-! ### FindExtended at the end of the list -/

/-- C13 on `tableLLLPLL` (types `LOGICAL, LOGICAL, LOGICAL, PRIMARY, LOGICAL,
LOGICAL`): from `start = 4` the run of `LOGICAL` notes that begins at position
4 has length 2 and reaches the last note, but `FindExtended` returns 1 (and
leaves `start` at 4); from `start = 5` the run has length 1 and it returns 0. -/
theorem C13_findExtended_short_at_end :
    logicalRunLength tableLLLPLL.notes 4 = 2 ∧ tableLLLPLL.FindExtended 4 = (1, 4) ∧
      logicalRunLength tableLLLPLL.notes 5 = 1 ∧ tableLLLPLL.FindExtended 5 = (0, 5) := by
  decide

/-! ### The last block of MakeItLegal and an excluded first note -/

/-- C18 on `tableEP` (a `WILL_NOT_CONVERT` note at sector 0, then a `PRIMARY`
note at sector 10): the list is legal, three slots are free, and the last block
of `MakeItLegal` turns the `WILL_NOT_CONVERT` note `PRIMARY`; `MakeItLegal`
returns 1 with two `PRIMARY` notes. -/
theorem C18_excluded_first_note_promoted :
    tableEP.GetType 0 = WILL_NOT_CONVERT ∧
      tableEP.allPrimaryIfFew = tableEP ∧
      tableEP.firstToPrimary = tableEPAfter ∧
      (∀ fuel : Nat, tableEP.MakeItLegal fuel = some (true, tableEPAfter)) ∧
      tableEPAfter.GetType 0 = PRIMARY := by
  refine ⟨by decide, by decide, by decide, ?_, by decide⟩
  intro fuel
  rw [makeItLegal_unfold _ _ (by decide)]
  have h2 : tableEP.cutToLegal fuel = some tableEP := by
    have hleg : tableEP.IsLegal = true := by decide
    simp [PartNotes.cutToLegal, hleg]
  rw [h2]
  decide

/-! ### No extended partition for four notes or fewer -/

theorem numPartsLoop_eq (l : List PartInfo) :
    numPartsLoop l = numPrimaryLoop l + numLogicalLoop l := by
  induction l with
  | nil => rfl
  | cons x r ih =>
    cases hx : x.type <;> simp [numPartsLoop, numPrimaryLoop, numLogicalLoop, hx, ih] <;> omega

theorem numLogicalLoop_eq_zero_iff (l : List PartInfo) :
    numLogicalLoop l = 0 ↔ ∀ x ∈ l, x.type ≠ LOGICAL := by
  induction l with
  | nil => simp [numLogicalLoop]
  | cons x r ih =>
    by_cases hx : x.type = LOGICAL
    · simp [numLogicalLoop, hx]
    · simp [numLogicalLoop, hx, ih]

theorem allPrimaryLoop_numLogical (l : List PartInfo) :
    numLogicalLoop (allPrimaryLoop l) = 0 := by
  induction l with
  | nil => rfl
  | cons x r ih =>
    by_cases hx : x.type = LOGICAL
    · simp [allPrimaryLoop, numLogicalLoop, hx, ih]
    · simp [allPrimaryLoop, numLogicalLoop, hx, ih]

theorem writeType_primary_counts (l : List PartInfo) (pos : Nat) :
    numLogicalLoop (writeType PRIMARY pos l) ≤ numLogicalLoop l ∧
      numPartsLoop l ≤ numPartsLoop (writeType PRIMARY pos l) := by
  induction l generalizing pos with
  | nil => simp [writeType]
  | cons x r ih =>
    cases pos with
    | zero =>
      cases hx : x.type <;> simp [writeType, numLogicalLoop, numPartsLoop, hx]
    | succ k =>
      obtain ⟨h1, h2⟩ := ih k
      simp only [writeType, numLogicalLoop, numPartsLoop]
      omega

theorem firstToPrimary_counts (s : PartNotes) :
    s.firstToPrimary.GetNumLogical ≤ s.GetNumLogical ∧
      s.GetNumParts ≤ s.firstToPrimary.GetNumParts := by
  unfold PartNotes.firstToPrimary PartNotes.GetNumLogical PartNotes.GetNumParts
  split
  · split
    · exact ⟨le_refl _, le_refl _⟩
    · simp only
      split
      · exact writeType_primary_counts s.notes _
      · exact ⟨le_refl _, le_refl _⟩
  · exact ⟨le_refl _, le_refl _⟩

theorem allPrimaryIfFew_counts (s : PartNotes) :
    s.allPrimaryIfFew.GetNumLogical = 0 ∨ s.allPrimaryIfFew.GetNumParts > 4 := by
  unfold PartNotes.allPrimaryIfFew
  split
  · left
    exact allPrimaryLoop_numLogical s.notes
  · right
    rename_i h
    simp only [PartNotes.GetNumParts, PartNotes.GetNumPrimary, PartNotes.GetNumLogical,
      numPartsLoop_eq] at h ⊢
    omega

/-- C20: whenever `MakeItLegal` returns, with either value, the state left has
no `LOGICAL` note or more than four notes that are `PRIMARY` or `LOGICAL`; so
when at most four notes are kept none of them is `LOGICAL`. -/
theorem C20_no_needless_extended (fuel : Nat) (s : PartNotes) (b : Bool) (t : PartNotes)
    (h : s.MakeItLegal fuel = some (b, t)) :
    (t.GetNumLogical = 0 ∨ t.GetNumParts > 4) ∧
      (t.GetNumParts ≤ 4 → ∀ x ∈ t.notes, x.type ≠ LOGICAL) := by
  have hmain : t.GetNumLogical = 0 ∨ t.GetNumParts > 4 := by
    unfold PartNotes.MakeItLegal at h
    by_cases hn : s.notes = []
    · rw [if_pos hn] at h
      simp only [Option.some.injEq, Prod.mk.injEq] at h
      left
      rw [← h.2]
      simp [PartNotes.GetNumLogical, hn, numLogicalLoop]
    · rw [if_neg hn] at h
      cases hc : s.RemoveDuplicates.cutToLegal fuel with
      | none => rw [hc] at h; simp at h
      | some u =>
        rw [hc] at h
        simp only [Option.some.injEq, Prod.mk.injEq] at h
        rw [← h.2]
        have h1 := allPrimaryIfFew_counts u
        have h2 := firstToPrimary_counts u.allPrimaryIfFew
        omega
  refine ⟨hmain, ?_⟩
  intro hfew
  rcases hmain with h0 | h4
  · exact (numLogicalLoop_eq_zero_iff t.notes).mp h0
  · omega

/-- C20 on `tableLLLPLL`: `MakeItLegal` leaves `tableLLLPPP`, which keeps three
`LOGICAL` notes and has six notes that are `PRIMARY` or `LOGICAL`. -/
theorem C20_no_needless_extended_witness :
    tableLLLPLL.MakeItLegal 2 = some (true, tableLLLPPP) ∧
      (tableLLLPPP.GetNumLogical = 0 ∨ tableLLLPPP.GetNumParts > 4) ∧
      tableLLLPPP.GetNumParts = 6 :=
  ⟨by rw [makeItLegal_unfold _ _ (by decide)]; decide,
   (C20_no_needless_extended 2 tableLLLPLL true tableLLLPPP
     (by rw [makeItLegal_unfold _ _ (by decide)]; decide)).1,
   by decide⟩

/-! ### Cutting primaries from the tail -/

theorem keepFirstPrimaries_of_le (n : Nat) (l : List PartInfo) (h : numPrimaryLoop l ≤ n) :
    keepFirstPrimaries n l = l := by
  induction l generalizing n with
  | nil => rfl
  | cons x r ih =>
    by_cases hx : x.type = PRIMARY
    · simp only [numPrimaryLoop, hx, if_true] at h
      cases n with
      | zero => omega
      | succ m =>
        simp only [keepFirstPrimaries, hx, if_true]
        rw [ih m (by omega)]
    · simp only [numPrimaryLoop, hx, if_false] at h
      simp only [keepFirstPrimaries, hx, if_false]
      rw [ih n (by omega)]

theorem keepFirstPrimaries_twice (a b : Nat) (l : List PartInfo) :
    keepFirstPrimaries a (keepFirstPrimaries b l) = keepFirstPrimaries (min a b) l := by
  induction l generalizing a b with
  | nil => rfl
  | cons x r ih =>
    by_cases hx : x.type = PRIMARY
    · cases b with
      | zero =>
        simp only [keepFirstPrimaries, hx, if_true, Nat.min_zero]
        have : ¬ (WILL_NOT_CONVERT = PRIMARY) := by simp
        simp only [this, if_false]
        rw [ih a 0, Nat.min_zero]
      | succ m =>
        cases a with
        | zero =>
          simp only [keepFirstPrimaries, hx, if_true, Nat.zero_min]
          rw [ih 0 m, Nat.zero_min]
        | succ k =>
          have hmin : min (k + 1) (m + 1) = min k m + 1 := by omega
          simp only [keepFirstPrimaries, hx, if_true, hmin]
          rw [ih k m]
    · simp only [keepFirstPrimaries, hx, if_false]
      rw [ih a b]

theorem keepFirstPrimaries_counts (n : Nat) (l : List PartInfo) :
    numPrimaryLoop (keepFirstPrimaries n l) = min n (numPrimaryLoop l) ∧
      numLogicalLoop (keepFirstPrimaries n l) = numLogicalLoop l := by
  induction l generalizing n with
  | nil => simp [keepFirstPrimaries, numPrimaryLoop, numLogicalLoop]
  | cons x r ih =>
    by_cases hx : x.type = PRIMARY
    · cases n with
      | zero =>
        obtain ⟨h1, h2⟩ := ih 0
        simp [keepFirstPrimaries, hx, numPrimaryLoop, numLogicalLoop, h1, h2]
      | succ m =>
        obtain ⟨h1, h2⟩ := ih m
        simp only [keepFirstPrimaries, hx, if_true, numPrimaryLoop, numLogicalLoop, h1, h2]
        constructor
        · omega
        · simp
    · obtain ⟨h1, h2⟩ := ih n
      simp only [keepFirstPrimaries, hx, if_false, numPrimaryLoop, numLogicalLoop, h1, h2]
      simp

theorem lastPrimaryLoop_of_none (l : List PartInfo) (pos : Nat) (acc : Option Nat)
    (h : numPrimaryLoop l = 0) : lastPrimaryLoop pos acc l = acc := by
  induction l generalizing pos acc with
  | nil => rfl
  | cons x r ih =>
    by_cases hx : x.type = PRIMARY
    · simp [numPrimaryLoop, hx] at h
    · simp only [numPrimaryLoop, hx, if_false] at h
      rw [lastPrimaryLoop, if_neg hx, ih _ _ (by omega)]

theorem lastPrimaryLoop_excludes_last (l : List PartInfo) (pos : Nat) (acc : Option Nat)
    (h : 1 ≤ numPrimaryLoop l) :
    ∃ p, lastPrimaryLoop pos acc l = some (pos + p) ∧
      writeType WILL_NOT_CONVERT p l = keepFirstPrimaries (numPrimaryLoop l - 1) l := by
  induction l generalizing pos acc with
  | nil => simp [numPrimaryLoop] at h
  | cons x r ih =>
    by_cases hr : 1 ≤ numPrimaryLoop r
    · obtain ⟨p, hp1, hp2⟩ := ih (pos + 1) (if x.type = PRIMARY then some pos else acc) hr
      refine ⟨p + 1, ?_, ?_⟩
      · rw [lastPrimaryLoop, hp1]
        congr 1
        omega
      · by_cases hx : x.type = PRIMARY
        · have hn : numPrimaryLoop (x :: r) - 1 = (numPrimaryLoop r - 1) + 1 := by
            simp only [numPrimaryLoop, hx, if_true]; omega
          rw [hn]
          simp only [writeType, keepFirstPrimaries, hx, if_true, hp2]
        · have hn : numPrimaryLoop (x :: r) - 1 = numPrimaryLoop r - 1 := by
            simp only [numPrimaryLoop, hx, if_false]; omega
          rw [hn]
          simp only [writeType, keepFirstPrimaries, hx, if_false, hp2]
    · have hr0 : numPrimaryLoop r = 0 := by omega
      have hx : x.type = PRIMARY := by
        by_contra hx
        simp only [numPrimaryLoop, hx, if_false] at h
        omega
      refine ⟨0, ?_, ?_⟩
      · rw [lastPrimaryLoop, if_pos hx, lastPrimaryLoop_of_none r _ _ hr0]
        rfl
      · have hn : numPrimaryLoop (x :: r) - 1 = 0 := by
          simp only [numPrimaryLoop, hx, if_true]; omega
        rw [hn]
        simp only [writeType, keepFirstPrimaries, hx, if_true]
        rw [keepFirstPrimaries_of_le 0 r (by omega)]

theorem isLegal_of_no_logical (s : PartNotes) (h : numLogicalLoop s.notes = 0) :
    s.IsLegal = true ↔ s.GetNumPrimary ≤ 4 := by
  have he := numExtendedLoop_le_numLogical false s.notes
  have hl := (numLogicalLoop_eq_zero_iff s.notes).mp h
  rw [isLegal_iff]
  simp only [PartNotes.GetNumExtended]
  constructor
  · intro h1; omega
  · intro h1
    exact ⟨by omega, by omega, fun x hx hxt => absurd hxt (hl x hx)⟩

theorem cutPrimariesLoop_keepFirst (fuel : Nat) (s : PartNotes) (lastPrimary : Option Nat)
    (hlp : lastPrimary ≠ none) (hnoL : numLogicalLoop s.notes = 0)
    (hfuel : s.GetNumPrimary ≤ fuel + 4) :
    cutPrimariesLoop fuel lastPrimary s =
      some { s with notes := keepFirstPrimaries 4 s.notes } := by
  induction fuel generalizing s lastPrimary with
  | zero =>
    have hleg : s.IsLegal = true := (isLegal_of_no_logical s hnoL).mpr (by omega)
    simp only [PartNotes.GetNumPrimary] at hfuel
    rw [keepFirstPrimaries_of_le 4 s.notes (by omega)]
    simp [cutPrimariesLoop, hleg]
  | succ k ih =>
    by_cases hleg : s.IsLegal = true
    · have h4 := (isLegal_of_no_logical s hnoL).mp hleg
      simp only [PartNotes.GetNumPrimary] at h4
      rw [keepFirstPrimaries_of_le 4 s.notes h4]
      simp [cutPrimariesLoop, hleg]
    · have h4 : ¬ s.GetNumPrimary ≤ 4 := fun h => hleg ((isLegal_of_no_logical s hnoL).mpr h)
      simp only [PartNotes.GetNumPrimary] at h4 hfuel
      have hcond : (!s.IsLegal) = true ∧ lastPrimary ≠ none := ⟨by simpa using hleg, hlp⟩
      obtain ⟨p, hp1, hp2⟩ := lastPrimaryLoop_excludes_last s.notes 0 none (by omega)
      rw [Nat.zero_add] at hp1
      rw [cutPrimariesLoop, if_pos hcond, hp1]
      simp only
      obtain ⟨hc1, hc2⟩ := keepFirstPrimaries_counts (numPrimaryLoop s.notes - 1) s.notes
      rw [hp2, ih _ (some p) (by simp) (by simp only; rw [hc2]; exact hnoL)
        (by simp only [PartNotes.GetNumPrimary]; rw [hc1]; omega)]
      simp only [keepFirstPrimaries_twice]
      have hmin : min 4 (numPrimaryLoop s.notes - 1) = 4 := by omega
      rw [hmin]

theorem allPrimaryLoop_of_no_logical (l : List PartInfo) (h : numLogicalLoop l = 0) :
    allPrimaryLoop l = l := by
  induction l with
  | nil => rfl
  | cons x r ih =>
    by_cases hx : x.type = LOGICAL
    · simp [numLogicalLoop, hx] at h
    · simp only [numLogicalLoop, hx, if_false] at h
      simp only [allPrimaryLoop, hx, if_false]
      rw [ih (by omega)]


theorem trimLoop_of_le (fuel : Nat) (s : PartNotes) (h : s.GetNumExtended ≤ 1) :
    trimLoop fuel s = some s := by
  have h2 : ¬ s.GetNumExtended > 1 := by omega
  cases fuel <;> simp [trimLoop, h2]

/-- C19: on a list with pairwise distinct extents, no `LOGICAL` note and more
than four `PRIMARY` notes, `MakeItLegal` returns 1 (after as many passes of the
cutting loop as there are `PRIMARY` notes beyond four) and leaves the list with
its first four `PRIMARY` notes kept, every later `PRIMARY` note turned
`WILL_NOT_CONVERT`, and every other note as it was. -/
theorem C19_primaries_cut_from_tail (fuel : Nat) (s : PartNotes)
    (hdist : s.notes.Pairwise (fun a b => sameExtents a b = false))
    (hnoL : ∀ x ∈ s.notes, x.type ≠ LOGICAL) (hk : 4 < s.GetNumPrimary)
    (hfuel : s.GetNumPrimary ≤ fuel + 4) :
    s.MakeItLegal fuel = some (true, { s with notes := keepFirstPrimaries 4 s.notes }) ∧
      numPrimaryLoop (keepFirstPrimaries 4 s.notes) = 4 := by
  have hnl : numLogicalLoop s.notes = 0 := (numLogicalLoop_eq_zero_iff s.notes).mpr hnoL
  have hne : s.notes ≠ [] := by
    intro h
    simp [PartNotes.GetNumPrimary, h, numPrimaryLoop] at hk
  have hill : s.IsLegal = false := by
    cases hleg : s.IsLegal
    · rfl
    · have := (isLegal_of_no_logical s hnl).mp hleg
      omega
  have he : s.GetNumExtended ≤ 1 := by
    have := numExtendedLoop_le_numLogical false s.notes
    simp only [PartNotes.GetNumExtended]; omega
  obtain ⟨hc1, hc2⟩ := keepFirstPrimaries_counts 4 s.notes
  have hp4 : numPrimaryLoop (keepFirstPrimaries 4 s.notes) = 4 := by
    simp only [PartNotes.GetNumPrimary] at hk
    rw [hc1]; omega
  have hl0 : numLogicalLoop (keepFirstPrimaries 4 s.notes) = 0 := by rw [hc2]; exact hnl
  have hcut : s.cutToLegal fuel = some { s with notes := keepFirstPrimaries 4 s.notes } := by
    unfold PartNotes.cutToLegal
    simp only [hill, Bool.not_false, if_true, trimLoop_of_le fuel s he]
    exact cutPrimariesLoop_keepFirst fuel s (some 0) (by simp) hnl hfuel
  have hfew : ({ s with notes := keepFirstPrimaries 4 s.notes } : PartNotes).allPrimaryIfFew =
      { s with notes := keepFirstPrimaries 4 s.notes } := by
    unfold PartNotes.allPrimaryIfFew
    simp only [PartNotes.GetNumPrimary, PartNotes.GetNumLogical, hp4, hl0]
    simp [allPrimaryLoop_of_no_logical _ hl0]
  have he0 : numExtendedLoop false (keepFirstPrimaries 4 s.notes) = 0 := by
    have := numExtendedLoop_le_numLogical false (keepFirstPrimaries 4 s.notes)
    omega
  have hfirst : ({ s with notes := keepFirstPrimaries 4 s.notes } : PartNotes).firstToPrimary =
      { s with notes := keepFirstPrimaries 4 s.notes } := by
    unfold PartNotes.firstToPrimary
    simp only [PartNotes.GetNumPrimary, PartNotes.GetNumExtended, hp4, he0]
    simp
  have hleg : ({ s with notes := keepFirstPrimaries 4 s.notes } : PartNotes).IsLegal = true := by
    rw [isLegal_of_no_logical _ hl0]
    simp only [PartNotes.GetNumPrimary, hp4]
    omega
  refine ⟨?_, hp4⟩
  unfold PartNotes.MakeItLegal
  rw [if_neg hne, removeDuplicates_of_distinct s hdist, hcut]
  simp only [hfew, hfirst, hleg]

/-- C19 on `tableSixPrimaries`: two passes of the cutting loop, and the last two
of the six `PRIMARY` notes are turned `WILL_NOT_CONVERT`. -/
theorem C19_primaries_cut_from_tail_witness :
    tableSixPrimaries.GetNumPrimary = 6 ∧
      tableSixPrimaries.MakeItLegal 2 = some (true, tableSixPrimariesAfter) ∧
      tableSixPrimariesAfter.notes.map (fun n => n.type) =
        [PRIMARY, WILL_NOT_CONVERT, PRIMARY, PRIMARY, PRIMARY, WILL_NOT_CONVERT,
          WILL_NOT_CONVERT] :=
  ⟨by decide,
   (C19_primaries_cut_from_tail 2 tableSixPrimaries (by decide) (by decide) (by decide)
     (by decide)).1,
   by decide⟩

/-! ### Two scenarios of MakeItLegal -/

theorem list_of_map_type6 (l : List PartInfo) (t0 t1 t2 t3 t4 t5 : PartType)
    (h : l.map (fun n => n.type) = [t0, t1, t2, t3, t4, t5]) :
    ∃ a0 a1 a2 a3 a4 a5 : PartInfo, l = [a0, a1, a2, a3, a4, a5] ∧ a0.type = t0 ∧
      a1.type = t1 ∧ a2.type = t2 ∧ a3.type = t3 ∧ a4.type = t4 ∧ a5.type = t5 := by
  match l, h with
  | [a0, a1, a2, a3, a4, a5], h =>
    simp only [List.map_cons, List.map_nil, List.cons.injEq, and_true] at h
    exact ⟨a0, a1, a2, a3, a4, a5, rfl, h.1, h.2.1, h.2.2.1, h.2.2.2.1, h.2.2.2.2.1, h.2.2.2.2.2⟩

theorem list_of_map_type5 (l : List PartInfo) (t0 t1 t2 t3 t4 : PartType)
    (h : l.map (fun n => n.type) = [t0, t1, t2, t3, t4]) :
    ∃ a0 a1 a2 a3 a4 : PartInfo, l = [a0, a1, a2, a3, a4] ∧ a0.type = t0 ∧
      a1.type = t1 ∧ a2.type = t2 ∧ a3.type = t3 ∧ a4.type = t4 := by
  match l, h with
  | [a0, a1, a2, a3, a4], h =>
    simp only [List.map_cons, List.map_nil, List.cons.injEq, and_true] at h
    exact ⟨a0, a1, a2, a3, a4, rfl, h.1, h.2.1, h.2.2.1, h.2.2.2.1, h.2.2.2.2⟩

theorem cutPrimariesLoop_of_legal (fuel : Nat) (lastPrimary : Option Nat) (s : PartNotes)
    (h : s.IsLegal = true) : cutPrimariesLoop fuel lastPrimary s = some s := by
  cases fuel <;> simp [cutPrimariesLoop, h]

/-- C11: on a list of six notes with pairwise distinct extents, a free sector
before each, the types `LOGICAL, LOGICAL, LOGICAL, PRIMARY, LOGICAL, LOGICAL`
and original table size 6, `GetNumExtended` is 2 and `IsLegal` is 0; with two
passes or more allowed `MakeItLegal` returns 1 and leaves the types `LOGICAL,
LOGICAL, LOGICAL, PRIMARY, PRIMARY, PRIMARY`, the other fields as they were,
`GetNumExtended` 1 and `IsLegal` 1. -/
theorem C11_two_runs_scenario (fuel : Nat) (s : PartNotes)
    (hroles : s.notes.map (fun n => n.type) =
      [LOGICAL, LOGICAL, LOGICAL, PRIMARY, LOGICAL, LOGICAL])
    (hspace : ∀ x ∈ s.notes, x.spaceBefore = true)
    (hdist : s.notes.Pairwise (fun a b => sameExtents a b = false))
    (hsize : s.origTableSize = 6) (hfuel : 2 ≤ fuel) :
    s.GetNumExtended = 2 ∧ s.IsLegal = false ∧
      ∃ t, s.MakeItLegal fuel = some (true, t) ∧ t.GetNumExtended = 1 ∧ t.IsLegal = true ∧
        t.notes.map (fun n => n.type) =
          [LOGICAL, LOGICAL, LOGICAL, PRIMARY, PRIMARY, PRIMARY] ∧
        List.Forall₂ Retyped s.notes t.notes := by
  obtain ⟨a0, a1, a2, a3, a4, a5, hl, h0, h1, h2, h3, h4, h5⟩ := list_of_map_type6 _ _ _ _ _ _ _ hroles
  have hdedup := removeDuplicates_of_distinct s hdist
  obtain ⟨notes, sz, cn, ci⟩ := s
  simp only at hl hsize hspace
  subst hl hsize
  have hs0 : a0.spaceBefore = true := hspace a0 (by simp)
  have hs1 : a1.spaceBefore = true := hspace a1 (by simp)
  have hs2 : a2.spaceBefore = true := hspace a2 (by simp)
  have hT1 : (PartNotes.mk [a0, a1, a2, a3, a4, a5] 6 cn ci).TrimSmallestExtended =
      PartNotes.mk [a0, a1, a2, a3, { a4 with type := PRIMARY }, a5] 6 cn ci := by
    simp [PartNotes.TrimSmallestExtended, PartNotes.GetNumExtended, numExtendedLoop, h0, h1, h2,
      h3, h4, h5, extendedsLoop, PartNotes.FindExtended, findSkipLoop, findCountLoop,
      shortestLoop, trimSeekLoop, trimDoLoop, numPrimaryLoop, wrapInt]
  have hT2 : (PartNotes.mk [a0, a1, a2, a3, { a4 with type := PRIMARY }, a5] 6 cn
      ci).TrimSmallestExtended =
      PartNotes.mk [a0, a1, a2, a3, { a4 with type := PRIMARY }, { a5 with type := PRIMARY }]
        6 cn ci := by
    simp [PartNotes.TrimSmallestExtended, PartNotes.GetNumExtended, numExtendedLoop, h0, h1, h2,
      h3, h4, h5, extendedsLoop, PartNotes.FindExtended, findSkipLoop, findCountLoop,
      shortestLoop, trimSeekLoop, trimDoLoop, numPrimaryLoop, wrapInt]
  have hE0 : (PartNotes.mk [a0, a1, a2, a3, a4, a5] 6 cn ci).GetNumExtended = 2 := by
    simp [PartNotes.GetNumExtended, numExtendedLoop, h0, h1, h2, h3, h4, h5]
  have hE1 : (PartNotes.mk [a0, a1, a2, a3, { a4 with type := PRIMARY }, a5] 6 cn
      ci).GetNumExtended = 2 := by
    simp [PartNotes.GetNumExtended, numExtendedLoop, h0, h1, h2, h3, h4, h5]
  have hE2 : (PartNotes.mk [a0, a1, a2, a3, { a4 with type := PRIMARY },
      { a5 with type := PRIMARY }] 6 cn ci).GetNumExtended = 1 := by
    simp [PartNotes.GetNumExtended, numExtendedLoop, h0, h1, h2, h3, h4, h5]
  have hP2 : (PartNotes.mk [a0, a1, a2, a3, { a4 with type := PRIMARY },
      { a5 with type := PRIMARY }] 6 cn ci).GetNumPrimary = 3 := by
    simp [PartNotes.GetNumPrimary, numPrimaryLoop, h0, h1, h2, h3, h4, h5]
  have hL2 : (PartNotes.mk [a0, a1, a2, a3, { a4 with type := PRIMARY },
      { a5 with type := PRIMARY }] 6 cn ci).GetNumLogical = 3 := by
    simp [PartNotes.GetNumLogical, numLogicalLoop, h0, h1, h2, h3, h4, h5]
  have hleg0 : (PartNotes.mk [a0, a1, a2, a3, a4, a5] 6 cn ci).IsLegal = false := by
    simp [PartNotes.IsLegal, hE0]
  have hleg2 : (PartNotes.mk [a0, a1, a2, a3, { a4 with type := PRIMARY },
      { a5 with type := PRIMARY }] 6 cn ci).IsLegal = true := by
    rw [isLegal_iff, hE2, hP2]
    refine ⟨by omega, by omega, ?_⟩
    intro x hx hxt
    simp only [List.mem_cons, List.mem_singleton, List.not_mem_nil, or_false] at hx
    rcases hx with rfl | rfl | rfl | rfl | rfl | rfl
    · exact hs0
    · exact hs1
    · exact hs2
    · rw [h3] at hxt; cases hxt
    · cases hxt
    · cases hxt
  refine ⟨hE0, hleg0, _, ?_, hE2, hleg2, by simp [h0, h1, h2, h3], ?_⟩
  · obtain ⟨k, rfl⟩ : ∃ k, fuel = k + 2 := ⟨fuel - 2, by omega⟩
    have htrim : trimLoop (k + 2) (PartNotes.mk [a0, a1, a2, a3, a4, a5] 6 cn ci) =
        some (PartNotes.mk [a0, a1, a2, a3, { a4 with type := PRIMARY },
          { a5 with type := PRIMARY }] 6 cn ci) := by
      rw [trimLoop, if_pos (by rw [hE0]; omega), hT1, trimLoop, if_pos (by rw [hE1]; omega), hT2]
      exact trimLoop_of_le k _ (by rw [hE2])
    unfold PartNotes.MakeItLegal
    rw [if_neg (by simp), hdedup]
    unfold PartNotes.cutToLegal
    simp only [hleg0, Bool.not_false, if_true, htrim, cutPrimariesLoop_of_legal _ _ _ hleg2]
    have hfew : (PartNotes.mk [a0, a1, a2, a3, { a4 with type := PRIMARY },
        { a5 with type := PRIMARY }] 6 cn ci).allPrimaryIfFew =
        PartNotes.mk [a0, a1, a2, a3, { a4 with type := PRIMARY }, { a5 with type := PRIMARY }]
          6 cn ci := by
      unfold PartNotes.allPrimaryIfFew
      rw [hP2, hL2, if_neg (by omega)]
    have hfirst : (PartNotes.mk [a0, a1, a2, a3, { a4 with type := PRIMARY },
        { a5 with type := PRIMARY }] 6 cn ci).firstToPrimary =
        PartNotes.mk [a0, a1, a2, a3, { a4 with type := PRIMARY }, { a5 with type := PRIMARY }]
          6 cn ci := by
      unfold PartNotes.firstToPrimary
      rw [hE2, hP2, if_neg (by omega)]
    rw [hfew, hfirst, hleg2]
  · exact List.Forall₂.cons (retyped_refl _) (List.Forall₂.cons (retyped_refl _)
      (List.Forall₂.cons (retyped_refl _) (List.Forall₂.cons (retyped_refl _)
      (List.Forall₂.cons (retyped_setType _ _ (by simp))
      (List.Forall₂.cons (retyped_setType _ _ (by simp)) List.Forall₂.nil)))))

/-- C11 on `tableLLLPLL`: the hypotheses hold there, and `MakeItLegal` leaves
`tableLLLPPP`. -/
theorem C11_two_runs_scenario_witness :
    tableLLLPLL.GetNumExtended = 2 ∧ tableLLLPLL.IsLegal = false ∧
      (∃ t, tableLLLPLL.MakeItLegal 2 = some (true, t) ∧ t.GetNumExtended = 1 ∧
        t.IsLegal = true ∧
        t.notes.map (fun n => n.type) =
          [LOGICAL, LOGICAL, LOGICAL, PRIMARY, PRIMARY, PRIMARY] ∧
        List.Forall₂ Retyped tableLLLPLL.notes t.notes) ∧
      tableLLLPLL.MakeItLegal 2 = some (true, tableLLLPPP) :=
  ⟨by decide, by decide,
   (C11_two_runs_scenario 2 tableLLLPLL (by decide) (by decide) (by decide) (by decide)
     (by decide)).2.2,
   by rw [makeItLegal_unfold _ _ (by decide)]; decide⟩

/-- C12, as stated, fails on `tableFiveLogical` (five `LOGICAL` notes in disk
order, distinct extents, a free sector before each): `MakeItLegal` returns 1 but
its last block turns the first note `PRIMARY`, so four `LOGICAL` notes and one
`PRIMARY` note are left, not five `LOGICAL` notes. -/
theorem C12_first_note_becomes_primary :
    (∀ fuel : Nat, tableFiveLogical.MakeItLegal fuel = some (true, tableFiveLogicalAfter)) ∧
      tableFiveLogical.GetNumLogical = 5 ∧
      tableFiveLogicalAfter.GetNumLogical = 4 ∧ tableFiveLogicalAfter.GetNumPrimary = 1 ∧
      tableFiveLogicalAfter.GetType 0 = PRIMARY := by
  refine ⟨?_, by decide, by decide, by decide, by decide⟩
  intro fuel
  rw [makeItLegal_unfold _ _ (by decide)]
  have h2 : tableFiveLogical.cutToLegal fuel = some tableFiveLogical := by
    have hleg : tableFiveLogical.IsLegal = true := by decide
    simp [PartNotes.cutToLegal, hleg]
  rw [h2]
  decide

/-- C12, amended: on a list of five `LOGICAL` notes with pairwise distinct
extents and a free sector before each, in which no note starts before the first
one, `MakeItLegal` returns 1 (no pass of a loop is needed) and changes one
type: the first note becomes `PRIMARY`. Four `LOGICAL` notes in one group and
one `PRIMARY` note are left, and the state is legal. -/
theorem C12_five_logicals_scenario (fuel : Nat) (s : PartNotes)
    (hroles : s.notes.map (fun n => n.type) = [LOGICAL, LOGICAL, LOGICAL, LOGICAL, LOGICAL])
    (hspace : ∀ x ∈ s.notes, x.spaceBefore = true)
    (hdist : s.notes.Pairwise (fun a b => sameExtents a b = false))
    (hfirst : FirstStartsFirst s.notes) :
    ∃ t, s.MakeItLegal fuel = some (true, t) ∧
      t.notes = writeType PRIMARY 0 s.notes ∧
      t.notes.map (fun n => n.type) = [PRIMARY, LOGICAL, LOGICAL, LOGICAL, LOGICAL] ∧
      t.GetNumLogical = 4 ∧ t.GetNumPrimary = 1 ∧ t.GetNumExtended = 1 ∧
      t.IsLegal = true := by
  obtain ⟨a0, a1, a2, a3, a4, hl, h0, h1, h2, h3, h4⟩ := list_of_map_type5 _ _ _ _ _ _ hroles
  have hdedup := removeDuplicates_of_distinct s hdist
  obtain ⟨notes, sz, cn, ci⟩ := s
  simp only at hl hspace hfirst
  subst hl
  have hs0 : a0.spaceBefore = true := hspace a0 (by simp)
  have hs1 : a1.spaceBefore = true := hspace a1 (by simp)
  have hs2 : a2.spaceBefore = true := hspace a2 (by simp)
  have hs3 : a3.spaceBefore = true := hspace a3 (by simp)
  have hs4 : a4.spaceBefore = true := hspace a4 (by simp)
  have hE0 : (PartNotes.mk [a0, a1, a2, a3, a4] sz cn ci).GetNumExtended = 1 := by
    simp [PartNotes.GetNumExtended, numExtendedLoop, h0, h1, h2, h3, h4]
  have hP0 : (PartNotes.mk [a0, a1, a2, a3, a4] sz cn ci).GetNumPrimary = 0 := by
    simp [PartNotes.GetNumPrimary, numPrimaryLoop, h0, h1, h2, h3, h4]
  have hL0 : (PartNotes.mk [a0, a1, a2, a3, a4] sz cn ci).GetNumLogical = 5 := by
    simp [PartNotes.GetNumLogical, numLogicalLoop, h0, h1, h2, h3, h4]
  have hleg0 : (PartNotes.mk [a0, a1, a2, a3, a4] sz cn ci).IsLegal = true := by
    rw [isLegal_iff, hE0, hP0]
    exact ⟨by omega, by omega, fun x hx _ => hspace x hx⟩
  have hfew : (PartNotes.mk [a0, a1, a2, a3, a4] sz cn ci).allPrimaryIfFew =
      PartNotes.mk [a0, a1, a2, a3, a4] sz cn ci := by
    unfold PartNotes.allPrimaryIfFew
    rw [hP0, hL0, if_neg (by omega)]
  have hkeep : firstPartLoop 0 (0, a0) [a0, a1, a2, a3, a4] = (0, a0) := by
    apply firstPartLoop_keeps
    intro x hx
    rcases List.mem_cons.mp hx with h | h
    · rw [h]
    · exact hfirst x h
  have hpromote : (PartNotes.mk [a0, a1, a2, a3, a4] sz cn ci).firstToPrimary =
      PartNotes.mk [{ a0 with type := PRIMARY }, a1, a2, a3, a4] sz cn ci := by
    unfold PartNotes.firstToPrimary
    rw [hE0, hP0, if_pos (by omega)]
    simp only [hkeep, hs0, if_true, writeType]
  have hlegT : (PartNotes.mk [{ a0 with type := PRIMARY }, a1, a2, a3, a4] sz cn ci).IsLegal =
      true := by
    rw [isLegal_iff]
    refine ⟨?_, ?_, ?_⟩
    · simp [PartNotes.GetNumPrimary, PartNotes.GetNumExtended, numPrimaryLoop, numExtendedLoop,
        h1, h2, h3, h4]
    · simp [PartNotes.GetNumExtended, numExtendedLoop, h1, h2, h3, h4]
    · intro x hx hxt
      simp only [List.mem_cons, List.mem_singleton, List.not_mem_nil, or_false] at hx
      rcases hx with rfl | rfl | rfl | rfl | rfl
      · cases hxt
      · exact hs1
      · exact hs2
      · exact hs3
      · exact hs4
  refine ⟨_, ?_, rfl, ?_, ?_, ?_, ?_, hlegT⟩
  · unfold PartNotes.MakeItLegal
    rw [if_neg (by simp), hdedup]
    unfold PartNotes.cutToLegal
    simp only [hleg0, Bool.not_true, Bool.false_eq_true, if_false, hfew, hpromote, hlegT]
  · simp [h1, h2, h3, h4]
  · simp [PartNotes.GetNumLogical, numLogicalLoop, h1, h2, h3, h4]
  · simp [PartNotes.GetNumPrimary, numPrimaryLoop, h1, h2, h3, h4]
  · simp [PartNotes.GetNumExtended, numExtendedLoop, h1, h2, h3, h4]

/-- C12, amended, on `tableFiveLogical`: the hypotheses hold there and
`MakeItLegal` leaves `tableFiveLogicalAfter`. -/
theorem C12_five_logicals_scenario_witness :
    FirstStartsFirst tableFiveLogical.notes ∧
      ∃ t, tableFiveLogical.MakeItLegal 0 = some (true, t) ∧
        t.notes = writeType PRIMARY 0 tableFiveLogical.notes ∧
        t.notes.map (fun n => n.type) = [PRIMARY, LOGICAL, LOGICAL, LOGICAL, LOGICAL] ∧
        t.GetNumLogical = 4 ∧ t.GetNumPrimary = 1 ∧ t.GetNumExtended = 1 ∧
        t.IsLegal = true :=
  ⟨by simp [FirstStartsFirst, tableFiveLogical, sampleTable, sampleNote],
   C12_five_logicals_scenario 0 tableFiveLogical (by decide) (by decide) (by decide)
     (by simp [FirstStartsFirst, tableFiveLogical, sampleTable, sampleNote])⟩

/-! ### The messages of ChangeType -/

theorem walkGet_walkModify (f : PartInfo → PartInfo) (partNum : Int) (l : List PartInfo)
    (count : Int) :
    walkGet partNum count (walkModify f partNum count l) = (walkGet partNum count l).map f := by
  induction l generalizing count with
  | nil => simp [walkModify, walkGet]
  | cons x r ih =>
    cases r with
    | nil => simp [walkModify, walkGet]
    | cons y t =>
      by_cases h : count < partNum
      · obtain ⟨y1, t1, hyt⟩ := walkModify_cons f partNum (count + 1) y t
        have := ih (count + 1)
        rw [hyt] at this
        simp only [walkModify, h, if_true, hyt, walkGet]
        rw [this]
      · simp [walkModify, walkGet, h]

theorem getType_setType (s : PartNotes) (partNum : Int) (newType : PartType)
    (hne : s.notes ≠ []) : (s.SetType partNum newType).GetType partNum = newType := by
  obtain ⟨n, hn⟩ := walkGet_isSome partNum 0 s.notes hne
  simp [PartNotes.GetType, PartNotes.SetType, walkGet_walkModify, hn]

/-- C17 fails in the code on `tablePPPPE` (four `PRIMARY` notes and a
`WILL_NOT_CONVERT` one, a free sector before each) when the last note is asked
to become `LOGICAL`, the call `ChangeType(4, LOGICAL)`: the tentative state is
illegal because five slots would be needed, its logicals form one group and
the note has a free sector before it, but the one message printed is "All
logical partitions must be contiguous", a cause that does not apply, and the
message about four primary partitions, the cause that does apply, is not
printed: the `else` branch under `newType == LOGICAL` prints the contiguity
message without testing `GetNumExtended()`, and the test for more than four
slots is made for `newType == PRIMARY` only. -/
theorem C17_logical_request_misreports :
    tablePPPPE.IsLegal = true ∧ (tablePPPPE.SetType 4 LOGICAL).IsLegal = false ∧
      (tablePPPPE.SetType 4 LOGICAL).CanBeLogical 4 = true ∧
      (tablePPPPE.SetType 4 LOGICAL).GetNumExtended = 1 ∧
      (tablePPPPE.SetType 4 LOGICAL).GetNumPrimary +
        (tablePPPPE.SetType 4 LOGICAL).GetNumExtended = 5 ∧
      tablePPPPE.ChangeTypeMessages 4 LOGICAL = [ChangeMessage.mustBeContiguous] := by
  decide

/-- The messages of a reverted change: `ChangeType` prints the message about
the free sector exactly when the note at the index is then `LOGICAL` without a
free sector before it, whatever type was asked for; and when the type asked for
is `PRIMARY`, it prints a message about the contiguity of the logicals exactly
when `GetNumExtended() > 1`, and the message about four primary partitions
exactly when `GetNumPrimary() + GetNumExtended() > 4`, both on the tentative
state. -/
theorem changeTypeMessages_of_reverted (s : PartNotes) (partNum : Int) (newType : PartType)
    (hne : s.notes ≠ []) (hleg : s.IsLegal = true)
    (hrej : (s.SetType partNum newType).IsLegal = false) :
    (ChangeMessage.freeSectorNeeded ∈ s.ChangeTypeMessages partNum newType ↔
      ((s.SetType partNum newType).GetType partNum = LOGICAL ∧
        (s.SetType partNum newType).CanBeLogical partNum = false)) ∧
    (newType = PRIMARY →
      ((ChangeMessage.mustBeContiguous ∈ s.ChangeTypeMessages partNum newType ∨
          ChangeMessage.singleGroup ∈ s.ChangeTypeMessages partNum newType) ↔
        (s.SetType partNum newType).GetNumExtended > 1) ∧
      (ChangeMessage.onlyFourPrimaries ∈ s.ChangeTypeMessages partNum newType ↔
        (s.SetType partNum newType).GetNumPrimary +
          (s.SetType partNum newType).GetNumExtended > 4)) := by
  have hget := getType_setType s partNum newType hne
  have hmsg : s.ChangeTypeMessages partNum newType =
      (if newType = LOGICAL then
        (if !(s.SetType partNum newType).CanBeLogical partNum then
          [ChangeMessage.freeSectorNeeded]
         else [ChangeMessage.mustBeContiguous])
       else []) ++
      (if newType = PRIMARY ∧ (s.SetType partNum newType).GetNumPrimary +
          (s.SetType partNum newType).GetNumExtended > 4 then
        [ChangeMessage.onlyFourPrimaries] else []) ++
      (if newType = PRIMARY ∧ (s.SetType partNum newType).GetNumExtended > 1 then
        [ChangeMessage.singleGroup] else []) := by
    unfold PartNotes.ChangeTypeMessages
    rw [if_pos ⟨hne, hleg⟩]
    simp only [hrej, Bool.not_false, if_true]
  rw [hmsg, hget]
  refine ⟨?_, ?_⟩
  · cases newType
    · simp
    · cases hc : (s.SetType partNum LOGICAL).CanBeLogical partNum <;> simp
    · simp
  · intro hp
    subst hp
    constructor
    · by_cases h1 : (s.SetType partNum PRIMARY).GetNumPrimary +
          (s.SetType partNum PRIMARY).GetNumExtended > 4 <;>
        by_cases h2 : (s.SetType partNum PRIMARY).GetNumExtended > 1 <;> simp [h1, h2]
    · by_cases h1 : (s.SetType partNum PRIMARY).GetNumPrimary +
          (s.SetType partNum PRIMARY).GetNumExtended > 4 <;>
        by_cases h2 : (s.SetType partNum PRIMARY).GetNumExtended > 1 <;> simp [h1, h2]

/-! ### One pass of TrimSmallestExtended changes LOGICAL notes only -/

theorem findSkipLoop_drop (start : Int) (l : List PartInfo) (next : Int) (hl : l ≠ []) :
    ∃ d : Nat, findSkipLoop start next l = (l.drop d, next + d) := by
  induction l generalizing next with
  | nil => exact absurd rfl hl
  | cons x r ih =>
    cases r with
    | nil => exact ⟨0, by simp [findSkipLoop]⟩
    | cons y t =>
      by_cases hc : next < start ∨ x.type ≠ LOGICAL
      · obtain ⟨d, hd⟩ := ih (next + 1) (by simp)
        refine ⟨d + 1, ?_⟩
        rw [findSkipLoop, if_pos hc, hd]
        simp only [List.drop_succ_cons, Prod.mk.injEq, true_and]
        push_cast; omega
      · exact ⟨0, by rw [findSkipLoop, if_neg hc]; simp⟩

theorem findCountLoop_logical (w : List PartInfo) :
    0 ≤ findCountLoop w ∧ ∀ x ∈ w.take (findCountLoop w).toNat, x.type = LOGICAL := by
  induction w with
  | nil => simp [findCountLoop]
  | cons x r ih =>
    cases r with
    | nil => simp [findCountLoop]
    | cons y t =>
      by_cases hx : x.type = LOGICAL
      · obtain ⟨h1, h2⟩ := ih
        have hn : (1 + findCountLoop (y :: t)).toNat = (findCountLoop (y :: t)).toNat + 1 := by
          omega
        rw [findCountLoop, if_pos hx, hn]
        refine ⟨by omega, ?_⟩
        intro z hz
        rw [List.take_succ_cons, List.mem_cons] at hz
        rcases hz with h | h
        · rw [h]; exact hx
        · exact h2 z h
      · rw [findCountLoop, if_neg hx]
        simp

theorem extendedsLoop_count (s : PartNotes) (hne : s.notes ≠ []) (k : Nat) (start : Int)
    (hstart : 0 ≤ start) :
    ∀ e ∈ extendedsLoop s k start, ∃ d : Nat, e.startNum = (d : Int) ∧
      e.numLogicals = findCountLoop (s.notes.drop d) := by
  induction k generalizing start with
  | zero => intro e he; simp [extendedsLoop] at he
  | succ k ih =>
    obtain ⟨d, hd⟩ := findSkipLoop_drop start s.notes 0 hne
    have hf : s.FindExtended start = (findCountLoop (s.notes.drop d), (d : Int)) := by
      unfold PartNotes.FindExtended
      rw [if_pos ⟨hne, hstart⟩]
      simp only [hd]
      simp
    intro e he
    simp only [extendedsLoop, hf, List.mem_cons] at he
    rcases he with he | he
    · exact ⟨d, by rw [he], by rw [he]⟩
    · have h0 := (findCountLoop_logical (s.notes.drop d)).1
      exact ih _ (by omega) e he

theorem demoted_refl (a : PartInfo) : Demoted a a := Or.inl rfl

theorem forall2_demoted_refl (l : List PartInfo) : List.Forall₂ Demoted l l := by
  induction l with
  | nil => exact List.Forall₂.nil
  | cons x r ih => exact List.Forall₂.cons (demoted_refl x) ih

theorem forall2_demoted_append {l1 l2 m1 m2 : List PartInfo} (h1 : List.Forall₂ Demoted l1 m1)
    (h2 : List.Forall₂ Demoted l2 m2) : List.Forall₂ Demoted (l1 ++ l2) (m1 ++ m2) := by
  induction h1 with
  | nil => simpa using h2
  | cons hab _ ih => exact List.Forall₂.cons hab ih

theorem trimDoLoop_demoted (bound : Int) (rest pre : List PartInfo) (i : Int)
    (h : ∀ x ∈ rest.take ((bound - i).toNat + 1), x.type = LOGICAL) :
    ∃ m, trimDoLoop bound pre i rest = pre ++ m ∧ List.Forall₂ Demoted rest m := by
  induction rest generalizing pre i with
  | nil => exact ⟨[], by simp [trimDoLoop], List.Forall₂.nil⟩
  | cons x r ih =>
    have hx : x.type = LOGICAL := h x (by simp)
    have hx1 : Demoted x { x with type := if numPrimaryLoop (pre ++ x :: r) < 3 then PRIMARY
        else WILL_NOT_CONVERT } := by
      right
      refine ⟨hx, ?_⟩
      split
      · exact Or.inl rfl
      · exact Or.inr rfl
    rw [trimDoLoop]
    split
    · rename_i hc
      have hn : (bound - i).toNat = (bound - (i + 1)).toNat + 1 := by omega
      obtain ⟨m, hm1, hm2⟩ := ih
        (pre ++ [{ x with type := if numPrimaryLoop (pre ++ x :: r) < 3 then PRIMARY
          else WILL_NOT_CONVERT }]) (i + 1) (by
          intro y hy
          apply h y
          rw [hn, List.take_succ_cons]
          exact List.mem_cons_of_mem _ hy)
      refine ⟨_ :: m, ?_, List.Forall₂.cons hx1 hm2⟩
      rw [hm1]
      simp
    · exact ⟨_ :: r, rfl, List.Forall₂.cons hx1 (forall2_demoted_refl r)⟩

theorem trimSmallestExtended_demoted (s : PartNotes)
    (hsize : (s.notes.length : Int) ≤ s.origTableSize) (hmax : s.origTableSize < 2147483647)
    (h1 : 1 ≤ s.GetNumExtended) :
    List.Forall₂ Demoted s.notes s.TrimSmallestExtended.notes := by
  have hne : s.notes ≠ [] := by
    intro h
    simp [PartNotes.GetNumExtended, h, numExtendedLoop] at h1
  have hpos : 0 < s.notes.length := List.length_pos.mpr hne
  have hw1 : wrapInt (s.origTableSize + 1) = s.origTableSize + 1 :=
    wrapInt_of_range _ (by omega) (by omega)
  have hgood := extendedsLoop_good s s.GetNumExtended 0 hpos (by
    simp [PartNotes.GetNumExtended])
  have hcount := extendedsLoop_count s hne s.GetNumExtended ((0 : Nat) : Int) (by simp)
  have hlen := extendedsLoop_length s s.GetNumExtended ((0 : Nat) : Int)
  obtain ⟨e0, he0⟩ : ∃ e0, e0 ∈ extendedsLoop s s.GetNumExtended ((0 : Nat) : Int) := by
    cases hext : extendedsLoop s s.GetNumExtended ((0 : Nat) : Int) with
    | nil => rw [hext] at hlen; simp at hlen; omega
    | cons e r => exact ⟨e, List.mem_cons_self _ _⟩
  obtain ⟨st0, len0, _, hl0, hlt0, _⟩ := hgood e0 he0
  obtain ⟨e, he, hshort⟩ := shortestLoop_found
    (extendedsLoop s s.GetNumExtended ((0 : Nat) : Int)) (s.origTableSize + 1, -1)
    ⟨e0, he0, by simp only [hl0]; omega⟩
  obtain ⟨st, len, hst, hl, hlt, x, r, hdrop, hx⟩ := hgood e he
  have hw2 : wrapInt (e.numLogicals + (st : Int)) = e.numLogicals + (st : Int) :=
    wrapInt_of_range _ (by rw [hl]; omega) (by rw [hl]; omega)
  obtain ⟨d, hd1, hd2⟩ := hcount e he
  have hdst : d = st := by rw [hst] at hd1; exact_mod_cast hd1.symm
  subst hdst
  have hseek := trimSeekLoop_reach d [] 0 s.notes (by omega)
  simp only [Nat.cast_zero] at hshort
  unfold PartNotes.TrimSmallestExtended
  rw [if_pos hne]
  simp only [hw1, hshort, hst, hw2]
  rw [Int.zero_add] at hseek
  rw [hseek]
  simp only [List.nil_append]
  have hlog := (findCountLoop_logical (s.notes.drop d)).2
  rw [← hd2, hl] at hlog
  simp only [Int.toNat_ofNat] at hlog
  obtain ⟨m, hm1, hm2⟩ := trimDoLoop_demoted (e.numLogicals + (d : Int)) (s.notes.drop d)
    (s.notes.take d) ((d : Int) + 1) (by
      intro y hy
      rw [hl] at hy
      by_cases hz : len = 0
      · subst hz
        have h0 : (((0 : Nat) : Int) + (d : Int) - ((d : Int) + 1)).toNat + 1 = 1 := by omega
        rw [h0, hdrop] at hy
        simp only [List.take_succ_cons, List.take_zero, List.mem_singleton] at hy
        rw [hy]; exact hx
      · have h0 : (((len : Nat) : Int) + (d : Int) - ((d : Int) + 1)).toNat + 1 = len := by omega
        rw [h0] at hy
        exact hlog y hy)
  rw [hm1]
  have := forall2_demoted_append (forall2_demoted_refl (s.notes.take d)) hm2
  rw [List.take_append_drop] at this
  exact this

/-- Below the largest `int`: on a list with `GetNumExtended() >= 1` whose
original table size is at least the number of notes and less than `2^31 - 1`,
one call of `TrimSmallestExtended` lowers `GetNumLogical()`, changes only notes
that were `LOGICAL`, each to `PRIMARY` or `WILL_NOT_CONVERT` and in no other
field, and leaves the rest of the state as it was; the loop
`while (GetNumExtended() > 1) TrimSmallestExtended();` ends within
`GetNumLogical()` passes. -/
theorem trimSmallestExtended_progress_below_max (s : PartNotes) (h1 : 1 ≤ s.GetNumExtended)
    (hsize : (s.notes.length : Int) ≤ s.origTableSize) (hmax : s.origTableSize < 2147483647) :
    s.TrimSmallestExtended.GetNumLogical < s.GetNumLogical ∧
      List.Forall₂ Demoted s.notes s.TrimSmallestExtended.notes ∧
      s.TrimSmallestExtended.origTableSize = s.origTableSize ∧
      s.TrimSmallestExtended.currentNote = s.currentNote ∧
      s.TrimSmallestExtended.currentIndex = s.currentIndex ∧
      ∃ t, trimLoop s.GetNumLogical s = some t ∧ t.GetNumExtended ≤ 1 := by
  refine ⟨trimSmallestExtended_numLogical s hsize (by omega) h1,
    trimSmallestExtended_demoted s hsize hmax h1, (trimSmallestExtended_retyped s).2, ?_, ?_, ?_⟩
  · unfold PartNotes.TrimSmallestExtended
    split <;> rfl
  · unfold PartNotes.TrimSmallestExtended
    split <;> rfl
  · obtain ⟨t, ht1, ht2, _, _⟩ :=
      trimLoop_terminates s.GetNumLogical s hsize (by omega) (le_refl _)
    exact ⟨t, ht1, ht2⟩

theorem walkModify_exclude_counts (partNum : Int) (l : List PartInfo) (count : Int) :
    numPrimaryLoop (walkModify (fun n => { n with type := WILL_NOT_CONVERT }) partNum count l) ≤
        numPrimaryLoop l ∧
      ∀ b, numExtendedLoop b
          (walkModify (fun n => { n with type := WILL_NOT_CONVERT }) partNum count l) ≤
        numExtendedLoop b l := by
  have hhead : ∀ (x : PartInfo) (r : List PartInfo),
      numPrimaryLoop (({ x with type := WILL_NOT_CONVERT } : PartInfo) :: r) ≤
          numPrimaryLoop (x :: r) ∧
        ∀ b, numExtendedLoop b (({ x with type := WILL_NOT_CONVERT } : PartInfo) :: r) ≤
          numExtendedLoop b (x :: r) := by
    intro x r
    have hm := numExtendedLoop_true_le r
    refine ⟨by simp [numPrimaryLoop], ?_⟩
    intro b
    cases hx : x.type <;> cases b <;> simp [numExtendedLoop, hx] <;> omega
  induction l generalizing count with
  | nil => simp [walkModify]
  | cons x r ih =>
    cases r with
    | nil => simpa [walkModify] using hhead x []
    | cons y t =>
      by_cases hc : count < partNum
      · obtain ⟨h1, h2⟩ := ih (count + 1)
        rw [walkModify, if_pos hc]
        generalize walkModify (fun n => { n with type := WILL_NOT_CONVERT }) partNum (count + 1)
          (y :: t) = w at h1 h2
        generalize y :: t = u at h1 h2
        have e1 : ∀ l : List PartInfo, numPrimaryLoop (x :: l) =
            (if x.type = PRIMARY then 1 else 0) + numPrimaryLoop l := fun _ => rfl
        refine ⟨by rw [e1, e1]; omega, ?_⟩
        intro b
        cases hx : x.type
        · have e2 : ∀ l : List PartInfo, numExtendedLoop b (x :: l) = numExtendedLoop false l := by
            intro l; simp [numExtendedLoop, hx]
          rw [e2, e2]; exact h2 false
        · have e2 : ∀ l : List PartInfo, numExtendedLoop b (x :: l) =
              (if b then 0 else 1) + numExtendedLoop true l := by
            intro l; simp [numExtendedLoop, hx]
          have := h2 true
          rw [e2, e2]; omega
        · have e2 : ∀ l : List PartInfo, numExtendedLoop b (x :: l) = numExtendedLoop b l := by
            intro l; simp [numExtendedLoop, hx]
          rw [e2, e2]; exact h2 b
      · rw [walkModify, if_neg hc]
        exact hhead x (y :: t)

theorem walkModify_retyped (t : PartType) (ht : t ≠ LOGICAL) (partNum : Int)
    (l : List PartInfo) (count : Int) :
    List.Forall₂ Retyped l (walkModify (fun n => { n with type := t }) partNum count l) := by
  induction l generalizing count with
  | nil => simp [walkModify]
  | cons x r ih =>
    cases r with
    | nil =>
      simpa [walkModify] using retyped_setType x t ht
    | cons y u =>
      by_cases hc : count < partNum
      · rw [walkModify, if_pos hc]
        exact List.Forall₂.cons (retyped_refl x) (ih (count + 1))
      · rw [walkModify, if_neg hc]
        exact List.Forall₂.cons (retyped_setType x t ht) (forall2_retyped_refl _)

theorem setType_exclude_legal (s : PartNotes) (partNum : Int) (hleg : s.IsLegal = true) :
    (s.SetType partNum WILL_NOT_CONVERT).IsLegal = true ∧
      (s.SetType partNum WILL_NOT_CONVERT).GetNumPrimary ≤ s.GetNumPrimary ∧
      (s.SetType partNum WILL_NOT_CONVERT).GetNumExtended ≤ s.GetNumExtended := by
  obtain ⟨h1, h2⟩ := walkModify_exclude_counts partNum s.notes 0
  have h3 := h2 false
  have hret := walkModify_retyped WILL_NOT_CONVERT (by simp) partNum s.notes 0
  rw [isLegal_iff] at hleg
  obtain ⟨k1, k2, k3⟩ := hleg
  refine ⟨?_, h1, h3⟩
  rw [isLegal_iff]
  simp only [PartNotes.GetNumPrimary, PartNotes.GetNumExtended, PartNotes.SetType] at k1 k2 ⊢
  exact ⟨by omega, by omega, logicalsHaveSpace_of_retyped hret k3⟩

/-- C22: on a non-empty legal list `ChangeType(index, WILL_NOT_CONVERT)` returns
1 and keeps the change: the state left is the one `SetType` produces, the note
at the clamped position is `WILL_NOT_CONVERT` with its other fields as they
were, every other note and the rest of the state are unchanged, the list is
legal, and neither `GetNumPrimary()` nor `GetNumExtended()` has grown. -/
theorem C22_drop_always_accepted (s : PartNotes) (partNum : Int) (hne : s.notes ≠ [])
    (hleg : s.IsLegal = true) :
    s.ChangeType partNum WILL_NOT_CONVERT = (true, s.SetType partNum WILL_NOT_CONVERT) ∧
      (s.ChangeType partNum WILL_NOT_CONVERT).2.GetType partNum = WILL_NOT_CONVERT ∧
      (s.ChangeType partNum WILL_NOT_CONVERT).2.IsLegal = true ∧
      (∀ j : Nat, (s.ChangeType partNum WILL_NOT_CONVERT).2.notes[j]? =
        if j = clampedPosition s.notes.length partNum then
          s.notes[j]?.map (fun n => { n with type := WILL_NOT_CONVERT })
        else s.notes[j]?) ∧
      (s.ChangeType partNum WILL_NOT_CONVERT).2.origTableSize = s.origTableSize ∧
      (s.ChangeType partNum WILL_NOT_CONVERT).2.currentNote = s.currentNote ∧
      (s.ChangeType partNum WILL_NOT_CONVERT).2.currentIndex = s.currentIndex ∧
      (s.ChangeType partNum WILL_NOT_CONVERT).2.GetNumPrimary ≤ s.GetNumPrimary ∧
      (s.ChangeType partNum WILL_NOT_CONVERT).2.GetNumExtended ≤ s.GetNumExtended := by
  obtain ⟨h1, h2, h3⟩ := setType_exclude_legal s partNum hleg
  have hct : s.ChangeType partNum WILL_NOT_CONVERT =
      (true, s.SetType partNum WILL_NOT_CONVERT) := by
    unfold PartNotes.ChangeType
    rw [if_pos ⟨hne, hleg⟩]
    simp [h1]
  rw [hct]
  refine ⟨rfl, getType_setType s partNum WILL_NOT_CONVERT hne, h1, ?_, rfl, rfl, rfl, h2, h3⟩
  intro j
  rw [clampedPosition_eq]
  exact walkModify_getElem? _ partNum s.notes 0 j hne

/-- C22 on `tablePP`: dropping the second note is kept, the table stays legal
and one `PRIMARY` note is left. -/
theorem C22_drop_always_accepted_witness :
    tablePP.notes ≠ [] ∧ tablePP.IsLegal = true ∧
      tablePP.ChangeType 1 WILL_NOT_CONVERT = (true, tablePP.SetType 1 WILL_NOT_CONVERT) ∧
      (tablePP.ChangeType 1 WILL_NOT_CONVERT).2.notes.map (fun n => n.type) =
        [PRIMARY, WILL_NOT_CONVERT] :=
  ⟨by decide, by decide,
   (C22_drop_always_accepted tablePP 1 (by decide) (by decide)).1,
   by decide⟩

end PartNotesModel
